import Mathlib

/-!
# libCWII (libcw.h 1.3): memory map, permission byte, heap and filesystem

A shallow embedding of `libcw.h`.

* Part 1 embeds what the header itself fixes: the two build configurations
  (`IS_CWX` defined or not), the address macros derived from them, the record
  types `block_t`, `fs_perms_t`, `fs_node_t`, `fs_extent_t`, the hardware
  register addresses and the permission presets.
* Parts 2 to 4 describe the heap allocator (`hinit`, `halloc`, `hfree`,
  `hmerge`) and the filesystem operations that change the region (`fs_init`,
  `fs_create_file`, `fs_create_directory`, `fs_delete_node`, `fs_move_node`,
  `fs_rename_node`, `fs_chmod_node`, `fs_write_file`) together with
  `fs_read_file`.  The header only declares these functions, so their behaviour
  is modelled from the specification, over the header's types and constants.
  The path wrappers (`fs_mkdir`, `fs_touch`, `fs_write`, `fs_read`, the lookups)
  resolve a path and then call these operations; they are not modelled.

Target conventions (nX-U16, 16-bit data model): `byte` and `char` are one
byte, `word` (`unsigned short`), `size_t` and near data pointers are two bytes,
multi-byte objects are little-endian, bit-fields are allocated from bit 0
upwards inside their storage unit.
-/

namespace LibCW

/-! ## Part 1a: build configurations and address macros (libcw.h 108-131) -/

/-- The values chosen by the `#ifdef IS_CWX ... #else ... #endif` block. -/
structure Config where
  /-- The macro `#define VRAM` -/
  VRAM : Nat
  /-- the offset `k` in `Write2RealScreen = *(VRAM + k)` -/
  screenOfs : Nat
  /-- the offset `k` in `HEAP_START_ADDR = (VRAM + k)` -/
  heapOfs : Nat
  /-- The macro `#define HEAP_MAX_SIZE` -/
  HEAP_MAX_SIZE : Nat
  /-- The macro `#define FS_MAX_SIZE` -/
  FS_MAX_SIZE : Nat
  /-- The macro `#define FS_MAX_NODES` -/
  FS_MAX_NODES : Nat
  /-- whether `IS_CWX` is defined -/
  isCwx : Bool
deriving DecidableEq, Repr

/-- The `#else` branch (IS_CWX not defined): the default build. -/
def cwii : Config :=
  { VRAM := 0x9000, screenOfs := 0xC02, heapOfs := 0xC04,
    HEAP_MAX_SIZE := 0x1400, FS_MAX_SIZE := 0x3800, FS_MAX_NODES := 255,
    isCwx := false }

/-- The `#ifdef IS_CWX` branch. -/
def cwx : Config :=
  { VRAM := 0xD000, screenOfs := 0x602, heapOfs := 0x604,
    HEAP_MAX_SIZE := 0xA00, FS_MAX_SIZE := 0x1000, FS_MAX_NODES := 64,
    isCwx := true }

/-- Both build configurations of the header. -/
def configs : List Config := [cwii, cwx]

/-- Address of `Write2RealScreen`. -/
def Write2RealScreen (c : Config) : Nat := c.VRAM + c.screenOfs

/-- The macro `#define HEAP_START_ADDR (VRAM + 0xC04)` resp. `(VRAM + 0x604)`. -/
def HEAP_START_ADDR (c : Config) : Nat := c.VRAM + c.heapOfs

/-- The macro `#define HEAP_BLOCK_ALIGN 2`. -/
def HEAP_BLOCK_ALIGN : Nat := 2

/-- The macro `#define FS_START_ADDR (HEAP_START_ADDR + HEAP_MAX_SIZE)`. -/
def FS_START_ADDR (c : Config) : Nat := HEAP_START_ADDR c + c.HEAP_MAX_SIZE

/-- The macro `#define FS_NAME_MAX_LEN 12`. -/
def FS_NAME_MAX_LEN : Nat := 12

/-- The macro `#define FS_INVALID_IDX 0xFF`. -/
def FS_INVALID_IDX : Nat := 0xFF

/-- The macro `#define FS_NULL_OFFSET 0xFFFF`. -/
def FS_NULL_OFFSET : Nat := 0xFFFF

/-! ## Part 1b: record layout (libcw.h 352-385) -/

/-- Size and alignment of one member of a C struct. -/
structure Member where
  size : Nat
  align : Nat
deriving DecidableEq, Repr

/-- Round `n` up to the next multiple of `a`. -/
def alignUp (a n : Nat) : Nat := (n + (a - 1)) / a * a

/-- Offsets of the members of a struct laid out in declaration order starting
at offset `cur`, each member placed at the next multiple of its alignment. -/
def memberOffsets : Nat → List Member → List Nat
  | _, [] => []
  | cur, m :: ms => alignUp m.align cur :: memberOffsets (alignUp m.align cur + m.size) ms

/-- Offset one past the last member. -/
def membersEnd : Nat → List Member → Nat
  | cur, [] => cur
  | cur, m :: ms => membersEnd (alignUp m.align cur + m.size) ms

/-- Alignment of a struct: the largest member alignment. -/
def structAlign (ms : List Member) : Nat := ms.foldl (fun a m => max a m.align) 1

/-- The C `sizeof` of a struct: end of the last member rounded to the struct alignment. -/
def structSize (ms : List Member) : Nat := alignUp (structAlign ms) (membersEnd 0 ms)

/-- The type `typedef unsigned char byte;` -/
def byteT : Member := ⟨1, 1⟩

/-- The type `typedef unsigned short word;` with alignment `a` (2 on the target, 1 if packed). -/
def wordT (a : Nat) : Member := ⟨2, a⟩

/-- The value of `sizeof(word)`. -/
def sizeof_word : Nat := (wordT 2).size

/-- A near data pointer: two bytes. -/
def nearPtrT (a : Nat) : Member := ⟨2, a⟩

/-- The member `char name[FS_NAME_MAX_LEN]`. -/
def nameT : Member := ⟨FS_NAME_MAX_LEN, 1⟩

/-- The type `union fs_perms { byte raw; struct { byte ...:1 ... } field; }`: one byte. -/
def permsT : Member := ⟨1, 1⟩

/-- Members of `struct block { word size; struct block *next; byte free; }`. -/
def block_t_members (a : Nat) : List Member := [wordT a, nearPtrT a, byteT]

/-- Members of `struct fs_node` in declaration order:
`perms, name, parent, first_child, next_sibling, size, data_offset`. -/
def fs_node_t_members (a : Nat) : List Member :=
  [permsT, nameT, byteT, byteT, byteT, wordT a, wordT a]

/-- Members of `struct fs_extent { word size; word next; }`. -/
def fs_extent_t_members (a : Nat) : List Member := [wordT a, wordT a]

/-- The value of `sizeof(block_t)` on the target (word alignment 2). -/
def sizeof_block_t : Nat := structSize (block_t_members 2)

/-- The value of `sizeof(fs_node_t)` on the target (word alignment 2). -/
def sizeof_fs_node_t : Nat := structSize (fs_node_t_members 2)

/-- The value of `sizeof(fs_extent_t)` on the target. -/
def sizeof_fs_extent_t : Nat := structSize (fs_extent_t_members 2)

/-- Width in bits of `size_t`, the type in which the `sizeof` expressions of
`FS_NODE_TABLE_SIZE` and `FS_DATA_POOL_SIZE` are evaluated. -/
def SIZE_T_BITS : Nat := 16

/-- Unsigned `size_t` arithmetic: reduce an integer modulo `2 ^ SIZE_T_BITS`. -/
def wrapSizeT (z : Int) : Nat := (z % (2 ^ SIZE_T_BITS : Int)).toNat

/-! ## Part 1c: filesystem region macros (libcw.h 144, 388-392) -/

/-- The macro `#define FS_FREE_LIST (*(word*)FS_START_ADDR)`: the address of the word. -/
def FS_FREE_LIST_ADDR (c : Config) : Nat := FS_START_ADDR c

/-- The macro `#define FS_NODES ((fs_node_t*)((byte*)FS_START_ADDR + sizeof(word)))`. -/
def FS_NODES (c : Config) : Nat := FS_START_ADDR c + sizeof_word

/-- Address of `FS_NODES[i]`. -/
def FS_NODE_ADDR (c : Config) (i : Nat) : Nat := FS_NODES c + sizeof_fs_node_t * i

/-- The macro `#define FS_ROOT (&FS_NODES[0])`. -/
def FS_ROOT (c : Config) : Nat := FS_NODE_ADDR c 0

/-- The macro `#define FS_NODE_TABLE_SIZE (sizeof(fs_node_t) * FS_MAX_NODES)`, in `size_t`. -/
def FS_NODE_TABLE_SIZE (c : Config) : Nat :=
  wrapSizeT ((sizeof_fs_node_t : Int) * (c.FS_MAX_NODES : Int))

/-- The macro `#define FS_DATA_POOL ((byte*)FS_START_ADDR + sizeof(word) + FS_NODE_TABLE_SIZE)`. -/
def FS_DATA_POOL (c : Config) : Nat := FS_START_ADDR c + sizeof_word + FS_NODE_TABLE_SIZE c

/-- The macro `#define FS_DATA_POOL_SIZE (FS_MAX_SIZE - sizeof(word) - FS_NODE_TABLE_SIZE)`,
evaluated left to right in unsigned `size_t` arithmetic. -/
def FS_DATA_POOL_SIZE (c : Config) : Nat :=
  wrapSizeT ((wrapSizeT ((c.FS_MAX_SIZE : Int) - (sizeof_word : Int)) : Int)
    - (FS_NODE_TABLE_SIZE c : Int))

/-- The half-open address range `[lo, hi)`. -/
def inRange (lo hi a : Nat) : Prop := lo ≤ a ∧ a < hi

instance (lo hi a : Nat) : Decidable (inRange lo hi a) := by
  unfold inRange; infer_instance

/-- End (exclusive) of the heap arena. -/
def HEAP_END (c : Config) : Nat := HEAP_START_ADDR c + c.HEAP_MAX_SIZE

/-- End (exclusive) of the filesystem region. -/
def FS_END (c : Config) : Nat := FS_START_ADDR c + c.FS_MAX_SIZE

/-! ## Part 1d: hardware registers defined by the header (libcw.h 111/118, 147-154, 192-268, 280) -/

/-- A memory-mapped register: address and access width in bytes. -/
structure Reg where
  addr : Nat
  width : Nat
deriving DecidableEq, Repr

/-- The real-time-clock registers `RTC_ENABLE .. RTC_YEAR` (all `byte`). -/
def rtcRegs : List Reg :=
  [⟨0xF0C7, 1⟩, ⟨0xF0C0, 1⟩, ⟨0xF0C1, 1⟩, ⟨0xF0C2, 1⟩, ⟨0xF0C3, 1⟩, ⟨0xF0C4, 1⟩,
   ⟨0xF0C5, 1⟩, ⟨0xF0C6, 1⟩]

/-- The special-function registers `StopAcceptor .. KeyboardOut`, in header order
(`ushort` ones have width 2). -/
def sfrRegs : List Reg :=
  [⟨0xF008, 1⟩, ⟨0xF009, 1⟩, ⟨0xF00A, 1⟩,
   ⟨0xF010, 1⟩, ⟨0xF011, 1⟩, ⟨0xF010, 2⟩, ⟨0xF012, 1⟩, ⟨0xF013, 1⟩, ⟨0xF012, 2⟩,
   ⟨0xF014, 1⟩, ⟨0xF015, 1⟩, ⟨0xF014, 2⟩, ⟨0xF016, 1⟩, ⟨0xF017, 1⟩, ⟨0xF016, 2⟩,
   ⟨0xF018, 1⟩,
   ⟨0xF020, 2⟩, ⟨0xF022, 2⟩, ⟨0xF024, 2⟩, ⟨0xF024, 1⟩, ⟨0xF025, 1⟩,
   ⟨0xF028, 1⟩,
   ⟨0xF030, 1⟩, ⟨0xF031, 1⟩, ⟨0xF032, 1⟩, ⟨0xF033, 1⟩, ⟨0xF034, 1⟩, ⟨0xF035, 1⟩,
   ⟨0xF036, 1⟩, ⟨0xF037, 1⟩, ⟨0xF039, 1⟩, ⟨0xF03D, 1⟩,
   ⟨0xF040, 1⟩, ⟨0xF041, 1⟩, ⟨0xF042, 1⟩, ⟨0xF044, 1⟩, ⟨0xF046, 1⟩]

/-- The register `BufSelSFR`, defined only when `IS_CWX` is not. -/
def bufSelRegs (c : Config) : List Reg := if c.isCwx then [] else [⟨0xF037, 1⟩]

/-- Every hardware register the header defines in configuration `c`. -/
def hwRegs (c : Config) : List Reg :=
  ⟨Write2RealScreen c, 1⟩ :: (rtcRegs ++ sfrRegs ++ bufSelRegs c)

/-- The byte addresses a register occupies. -/
def Reg.bytes (r : Reg) : List Nat := (List.range r.width).map (fun k => r.addr + k)

/-! ## Part 1e: the permission byte (libcw.h 133-141, 358-368) -/

/-- The union `fs_perms_t`, identified with its `raw` byte. -/
structure fs_perms_t where
  raw : Nat
deriving DecidableEq, Repr

/-- Widths of the bit-fields of `fs_perms_t.field`, in declaration order:
`read:1, write:1, execute:1, is_directory:1, reserved:4`. -/
def permFieldWidths : List Nat := [1, 1, 1, 1, 4]

/-- Bit position of the `k`-th bit-field: the sum of the widths declared before it. -/
def bitPos (ws : List Nat) (k : Nat) : Nat := (ws.take k).sum

/-- Width of the `k`-th bit-field. -/
def bitWidth (ws : List Nat) (k : Nat) : Nat := ws.getD k 0

/-- Read the `k`-th bit-field of a storage unit holding `raw`. -/
def getField (ws : List Nat) (k raw : Nat) : Nat :=
  raw / 2 ^ bitPos ws k % 2 ^ bitWidth ws k

/-- Store `v` (truncated to the field width) into the `k`-th bit-field of `raw`. -/
def setField (ws : List Nat) (k raw v : Nat) : Nat :=
  raw - getField ws k raw * 2 ^ bitPos ws k + v % 2 ^ bitWidth ws k * 2 ^ bitPos ws k

namespace fs_perms_t

/-- The C expression `p.field.read` -/
def read (p : fs_perms_t) : Nat := getField permFieldWidths 0 p.raw
/-- The C expression `p.field.write` -/
def write (p : fs_perms_t) : Nat := getField permFieldWidths 1 p.raw
/-- The C expression `p.field.execute` -/
def execute (p : fs_perms_t) : Nat := getField permFieldWidths 2 p.raw
/-- The C expression `p.field.is_directory` -/
def is_directory (p : fs_perms_t) : Nat := getField permFieldWidths 3 p.raw
/-- The C expression `p.field.reserved` -/
def reserved (p : fs_perms_t) : Nat := getField permFieldWidths 4 p.raw

/-- The C expression `p.field.read = v` -/
def setRead (p : fs_perms_t) (v : Nat) : fs_perms_t := ⟨setField permFieldWidths 0 p.raw v⟩
/-- The C expression `p.field.write = v` -/
def setWrite (p : fs_perms_t) (v : Nat) : fs_perms_t := ⟨setField permFieldWidths 1 p.raw v⟩
/-- The C expression `p.field.execute = v` -/
def setExecute (p : fs_perms_t) (v : Nat) : fs_perms_t := ⟨setField permFieldWidths 2 p.raw v⟩
/-- The C expression `p.field.is_directory = v` -/
def setIsDirectory (p : fs_perms_t) (v : Nat) : fs_perms_t :=
  ⟨setField permFieldWidths 3 p.raw v⟩

/-- Re-encode five field values as a raw byte: `read + 2*write + 4*execute +
8*is_directory + 16*reserved`. -/
def encode (r w x d res : Nat) : Nat := r + 2 * w + 4 * x + 8 * d + 16 * res

end fs_perms_t

/-- The compound literal `(fs_perms_t){ .field.read=r, .field.write=w, .field.execute=x }`:
members without an initialiser are zero. -/
def permsLiteral (r w x : Nat) : fs_perms_t :=
  ((((⟨0⟩ : fs_perms_t).setRead r).setWrite w).setExecute x)

def PERMS_RWX : fs_perms_t := permsLiteral 1 1 1
def PERMS_RW : fs_perms_t := permsLiteral 1 1 0
def PERMS_R : fs_perms_t := permsLiteral 1 0 0
def PERMS_WX : fs_perms_t := permsLiteral 0 1 1
def PERMS_W : fs_perms_t := permsLiteral 0 1 0
def PERMS_X : fs_perms_t := permsLiteral 0 0 1
def PERMS_RX : fs_perms_t := permsLiteral 1 0 1
def PERMS_NONE : fs_perms_t := permsLiteral 0 0 0

/-- The eight presets in the order the header defines them. -/
def permPresets : List fs_perms_t :=
  [PERMS_RWX, PERMS_RW, PERMS_R, PERMS_WX, PERMS_W, PERMS_X, PERMS_RX, PERMS_NONE]

/-! ## Part 2: heap allocator (declared at libcw.h 59-64, `block_t` at 352-356)

The bodies of `hinit`, `halloc`, `hfree` and `hmerge` are not in the header.
They are modelled from the specification (Data model "Block", and the
component design of the Heap Allocator).  The arena is represented by its
block chain in address order: the `next` link of a block is the following
list element, and the address of every block follows from the sizes before it
because blocks are laid out contiguously. -/

/-- One heap block: the `size` (payload capacity) and `free` members of
`block_t`; the `next` member is the following element of the chain. -/
structure block_t where
  size : Nat
  free : Bool
deriving DecidableEq, Repr

/-- Modelled from the spec: the per-block overhead, which the spec leaves
unnamed; taken to be the block header `sizeof(block_t)`. -/
def BLOCK_OVERHEAD : Nat := sizeof_block_t

/-- Modelled from the spec: `hinit`, whose body is missing from the header:
"format arena as one free block", one block that spans the whole arena, the
capacities plus the per-block overhead adding up to the arena capacity. -/
def hinit (c : Config) : List block_t :=
  [⟨c.HEAP_MAX_SIZE - BLOCK_OVERHEAD, true⟩]

/-- Modelled from the spec: the scan of `halloc`, whose body is missing from the
header, over the chain from the block whose header is at address `a`: the first
free block whose capacity covers `req` is taken; if the remainder exceeds one
block's overhead a new free block is split off for it, otherwise the whole
block is consumed.  Returns the payload address (`none` for the null handle)
and the new chain. -/
def hallocAt : Nat → Nat → List block_t → Option Nat × List block_t
  | _, _, [] => (none, [])
  | a, req, b :: bs =>
    if b.free = true ∧ req ≤ b.size then
      if b.size - req > BLOCK_OVERHEAD then
        (some (a + BLOCK_OVERHEAD),
          ⟨req, false⟩ :: ⟨b.size - req - BLOCK_OVERHEAD, true⟩ :: bs)
      else
        (some (a + BLOCK_OVERHEAD), ⟨b.size, false⟩ :: bs)
    else
      ((hallocAt (a + BLOCK_OVERHEAD + b.size) req bs).1,
        b :: (hallocAt (a + BLOCK_OVERHEAD + b.size) req bs).2)

/-- Modelled from the spec: `halloc(size)`, whose body is missing from the
header: the request is rounded up to the alignment unit `HEAP_BLOCK_ALIGN`, then
the chain is scanned first-fit. -/
def halloc (c : Config) (h : List block_t) (size : Nat) : Option Nat × List block_t :=
  hallocAt (HEAP_START_ADDR c) (alignUp HEAP_BLOCK_ALIGN size) h

/-- Modelled from the spec: the scan of `hfree`, whose body is missing from the
header: the block whose payload starts at `ptr` is marked free; nothing is
coalesced.  A pointer that is no payload address leaves the chain as it is. -/
def hfreeAt : Nat → Nat → List block_t → List block_t
  | _, _, [] => []
  | a, ptr, b :: bs =>
    if ptr = a + BLOCK_OVERHEAD then ⟨b.size, true⟩ :: bs
    else b :: hfreeAt (a + BLOCK_OVERHEAD + b.size) ptr bs

/-- Modelled from the spec: `hfree(ptr)`, whose body is missing from the header. -/
def hfree (c : Config) (h : List block_t) (ptr : Nat) : List block_t :=
  hfreeAt (HEAP_START_ADDR c) ptr h

/-- Modelled from the spec: the pass of `hmerge` with `cur` the block being
grown: a following free block is absorbed together with its header. -/
def hmergeFrom : block_t → List block_t → List block_t
  | cur, [] => [cur]
  | cur, b :: bs =>
    if cur.free = true ∧ b.free = true then
      hmergeFrom ⟨cur.size + BLOCK_OVERHEAD + b.size, true⟩ bs
    else cur :: hmergeFrom b bs

/-- Modelled from the spec: `hmerge`, whose body is missing from the header:
"one linear pass over the block chain combining every run of adjacent free
blocks into a single block". -/
def hmerge : List block_t → List block_t
  | [] => []
  | b :: bs => hmergeFrom b bs

/-- A call of the allocator interface. -/
inductive HeapCall where
  | halloc (size : Nat)
  | hfree (ptr : Nat)
deriving DecidableEq, Repr

/-- The arena's block chain together with the live allocations: the pairs
(handle, requested size) returned by `halloc` and not yet passed to `hfree`. -/
structure HeapState where
  chain : List block_t
  live : List (Nat × Nat)
deriving DecidableEq, Repr

/-- Perform one call. -/
def heapStep (c : Config) (s : HeapState) : HeapCall → HeapState
  | .halloc size =>
    match (halloc c s.chain size).1 with
    | some p => ⟨(halloc c s.chain size).2, (p, size) :: s.live⟩
    | none => ⟨(halloc c s.chain size).2, s.live⟩
  | .hfree ptr => ⟨hfree c s.chain ptr, s.live.filter (fun e => e.1 ≠ ptr)⟩

/-- A sequence of calls on a freshly `hinit`-ed arena. -/
def heapRun (c : Config) (calls : List HeapCall) : HeapState :=
  calls.foldl (heapStep c) ⟨hinit c, []⟩

/-- Total free capacity reported by the chain: the sizes of the free blocks. -/
def freeCapacity (h : List block_t) : Nat :=
  ((h.filter (fun b => b.free)).map block_t.size).sum

/-- Total capacity of the occupied blocks. -/
def usedCapacity (h : List block_t) : Nat :=
  ((h.filter (fun b => !b.free)).map block_t.size).sum

/-- Sum of the requested sizes of the live allocations. -/
def liveSizes (s : HeapState) : Nat := (s.live.map Prod.snd).sum

/-- The occupied blocks of a chain whose first header is at `a`, as pairs
(payload address, capacity), in address order. -/
def occupied : Nat → List block_t → List (Nat × Nat)
  | _, [] => []
  | a, b :: bs =>
    if b.free = true then occupied (a + BLOCK_OVERHEAD + b.size) bs
    else (a + BLOCK_OVERHEAD, b.size) :: occupied (a + BLOCK_OVERHEAD + b.size) bs

/-- Bytes spanned by a chain: every block's header and payload. -/
def chainSpan (h : List block_t) : Nat := (h.map (fun b => BLOCK_OVERHEAD + b.size)).sum

/-- No two neighbouring blocks of the chain are both free. -/
def noAdjacentFree : List block_t → Prop
  | [] => True
  | [_] => True
  | b1 :: b2 :: bs => ¬ (b1.free = true ∧ b2.free = true) ∧ noAdjacentFree (b2 :: bs)

/-- A live allocation `e` = (handle, requested size) owns the occupied block
`o` = (payload address, capacity): same address, and the capacity is the
request rounded up to the alignment unit, plus at most one block overhead (the
remainder that was too small to split off). -/
def OwnsBlock (e o : Nat × Nat) : Prop :=
  e.1 = o.1 ∧ alignUp HEAP_BLOCK_ALIGN e.2 ≤ o.2 ∧
    o.2 ≤ alignUp HEAP_BLOCK_ALIGN e.2 + BLOCK_OVERHEAD

/-- Sum of the requested sizes of the live allocations, each rounded up to the
alignment unit. -/
def liveRounded (s : HeapState) : Nat :=
  (s.live.map (fun e => alignUp HEAP_BLOCK_ALIGN e.2)).sum

/-- The live allocations and the occupied blocks of the chain (first header at
`a`) correspond one to one. -/
def LiveMatches (a : Nat) (chain : List block_t) (live : List (Nat × Nat)) : Prop :=
  ∃ l, List.Perm l (occupied a chain) ∧ List.Forall₂ OwnsBlock live l

/-! ## Part 3: node table and `fs_move_node` (declared at libcw.h 70, `fs_node_t` at 370-379)

The filesystem region is represented by its three parts: the free-list head
word `FS_FREE_LIST`, the node table `FS_NODES` (entry `i` is `nodes i`; the
entries with `i < FS_MAX_NODES` are the table slots) and the bytes of the extent
pool `FS_DATA_POOL` (`pool o` is the byte at pool offset `o`), together with the
pool of free node slots.  A `fs_node_t *` argument is represented by the index
of the entry it points to. -/

/-- The record `fs_node_t`. -/
structure fs_node_t where
  perms : fs_perms_t
  name : List Nat
  parent : Nat
  first_child : Nat
  next_sibling : Nat
  size : Nat
  data_offset : Nat

/-- The persisted filesystem region. -/
structure FS where
  /-- the word `FS_FREE_LIST` -/
  free_list : Nat
  /-- the table `FS_NODES` -/
  nodes : Nat → fs_node_t
  /-- the bytes of `FS_DATA_POOL` -/
  pool : Nat → Nat
  /-- Modelled from the spec: the "free-node pool" of the Node Store, whose
  representation the header does not show: the slots a create may take, next
  one first -/
  free_nodes : List Nat

/-- The error taxonomy of the specification (section 7); the C interface
flattens it to a failure flag. -/
inductive FsError where
  | OutOfMemory | NotADirectory | NotAFile | NameTooLong | DuplicateName | NoSpace
  | PermissionDenied | NotFound | CyclicMove | InvalidOperation
deriving DecidableEq, Repr

/-- Store `n` into `FS_NODES[i]`. -/
def FS.setNode (fs : FS) (i : Nat) (n : fs_node_t) : FS :=
  { fs with nodes := fun j => if j = i then n else fs.nodes j }

/-- The node reached from `cur` by following `k` parent links. -/
def parentIter (nodes : Nat → fs_node_t) (k cur : Nat) : Nat :=
  (fun i => (nodes i).parent)^[k] cur

/-- Modelled from the spec: the cycle check of `fs_move_node`, whose body is
missing from the header: "checked by walking newParent's ancestor chain".
Starting at `cur`, the walk follows parent links until it meets `target`
(`some true`) or the sentinel `FS_INVALID_IDX` (`some false`); `none` when the
loop has not ended after `fuel` iterations. -/
def isSelfOrAncestor (nodes : Nat → fs_node_t) (target : Nat) : Nat → Nat → Option Bool
  | 0, _ => none
  | fuel + 1, cur =>
    if cur = FS_INVALID_IDX then some false
    else if cur = target then some true
    else isSelfOrAncestor nodes target fuel (nodes cur).parent

/-- Modelled from the spec: the predecessor scan used to unlink a node, whose
body is missing from the header: starting at `cur`, follow `next_sibling` until
the entry whose `next_sibling` is `node`; the sentinel when the chain ends
first, `none` when the loop has not ended after `fuel` iterations. -/
def findPrevSibling (nodes : Nat → fs_node_t) (node : Nat) : Nat → Nat → Option Nat
  | 0, _ => none
  | fuel + 1, cur =>
    if cur = FS_INVALID_IDX then some FS_INVALID_IDX
    else if (nodes cur).next_sibling = node then some cur
    else findPrevSibling nodes node fuel (nodes cur).next_sibling

/-- Modelled from the spec: the detach step of `fs_move_node`, whose body is
missing from the header, unlinking `node` from its parent's child list: the parent's `first_child` is advanced when it
is `node`, otherwise the predecessor found by the scan is linked to `node`'s
next sibling. -/
def fs_detach (c : Config) (fs : FS) (node : Nat) : Option FS :=
  let par := (fs.nodes node).parent
  if (fs.nodes par).first_child = node then
    some (fs.setNode par { fs.nodes par with first_child := (fs.nodes node).next_sibling })
  else
    match findPrevSibling fs.nodes node (c.FS_MAX_NODES + 1) (fs.nodes par).first_child with
    | none => none
    | some prev =>
      if prev = FS_INVALID_IDX then some fs
      else some (fs.setNode prev
        { fs.nodes prev with next_sibling := (fs.nodes node).next_sibling })

/-- Modelled from the spec: the re-link step of `fs_move_node`, whose body is
missing from the header: `node` becomes the first child of `new_parent`, the
previous first child becoming its next sibling. -/
def fs_link_first (fs : FS) (node new_parent : Nat) : FS :=
  let fs1 := fs.setNode node
    { fs.nodes node with parent := new_parent,
                         next_sibling := (fs.nodes new_parent).first_child }
  fs1.setNode new_parent { fs1.nodes new_parent with first_child := node }

/-- Modelled from the spec: `fs_move_node(node, new_parent)`, whose body is
missing from the header: "fails NotADirectory if newParent is not a directory;
fails CyclicMove if newParent equals node or is a descendant of node (checked by
walking newParent's ancestor chain); detaches and re-links as newParent's first
child".  The result is the error (`none` for success) and the region afterwards;
the outer `none` stands for a loop that does not end within the table size. -/
def fs_move_node (c : Config) (fs : FS) (node new_parent : Nat) :
    Option (Option FsError × FS) :=
  if (fs.nodes new_parent).perms.is_directory = 0 then
    some (some FsError.NotADirectory, fs)
  else
    match isSelfOrAncestor fs.nodes node (c.FS_MAX_NODES + 1) new_parent with
    | none => none
    | some true => some (some FsError.CyclicMove, fs)
    | some false =>
      match fs_detach c fs node with
      | none => none
      | some fs1 => some (none, fs_link_first fs1 node new_parent)

/-- The directory `p` is `n` itself or a descendant of `n`: following `k` parent
links from `p` leads to `n`, through table slots only. -/
def IsSelfOrDescendant (c : Config) (fs : FS) (n p : Nat) : Prop :=
  ∃ k, parentIter fs.nodes k p = n ∧ ∀ j, j ≤ k → parentIter fs.nodes j p < c.FS_MAX_NODES

/-! ## Part 4: extent pool, `fs_write_file` and `fs_read_file`
(declared at libcw.h 65, 73-74; `fs_extent_t` at 381-385)

The bodies are not in the header; they are modelled from the specification
(Data model "Extent", component design of the Extent Pool and of the Filesystem
Facade).  Extent headers live inline in the pool bytes: the `size` word at the
extent's offset, the `next` word two bytes later, the payload after the
header. -/

/-- Read a little-endian 16-bit `word` at offset `a`. -/
def rd16 (m : Nat → Nat) (a : Nat) : Nat := m a + 256 * m (a + 1)

/-- Store one byte. -/
def wr8 (m : Nat → Nat) (a v : Nat) : Nat → Nat :=
  fun x => if x = a then v % 256 else m x

/-- Store a little-endian 16-bit `word` at offset `a`. -/
def wr16 (m : Nat → Nat) (a v : Nat) : Nat → Nat :=
  wr8 (wr8 m a v) (a + 1) (v / 256)

/-- Copy the bytes `l` to offsets `a, a+1, ...`. -/
def writeBytes (m : Nat → Nat) : Nat → List Nat → Nat → Nat
  | _, [] => m
  | a, b :: bs => writeBytes (wr8 m a b) (a + 1) bs

/-- The `k` bytes at offsets `a, a+1, ...`. -/
def readBytes (m : Nat → Nat) (a : Nat) : Nat → List Nat
  | 0 => []
  | k + 1 => m a :: readBytes m (a + 1) k

/-- Offsets of the members `size` and `next` inside `fs_extent_t`. -/
def EXT_SIZE_OFS : Nat := (memberOffsets 0 (fs_extent_t_members 2)).getD 0 0
def EXT_NEXT_OFS : Nat := (memberOffsets 0 (fs_extent_t_members 2)).getD 1 0

/-- The `size` member of the extent at pool offset `o`. -/
def ext_size (pool : Nat → Nat) (o : Nat) : Nat := rd16 pool (o + EXT_SIZE_OFS)

/-- The `next` member of the extent at pool offset `o`. -/
def ext_next (pool : Nat → Nat) (o : Nat) : Nat := rd16 pool (o + EXT_NEXT_OFS)

/-- Offset of the payload of the extent at pool offset `o`. -/
def ext_data (o : Nat) : Nat := o + sizeof_fs_extent_t

/-- The root directory: full permissions, is-directory, no name, no parent,
no children. -/
def rootNode : fs_node_t :=
  { perms := PERMS_RWX.setIsDirectory 1, name := [], parent := FS_INVALID_IDX,
    first_child := FS_INVALID_IDX, next_sibling := FS_INVALID_IDX, size := 0,
    data_offset := FS_NULL_OFFSET }

/-- An all-zero node-table entry. -/
def zeroNode : fs_node_t :=
  { perms := ⟨0⟩, name := [], parent := 0, first_child := 0, next_sibling := 0, size := 0,
    data_offset := 0 }

/-- Modelled from the spec: `fs_init`, whose body is missing from the header:
it "resets the free-node pool to all capacity minus the reserved root slot",
creates the root "with full permissions and no children", and "the entire pool
capacity becomes one free extent on the pool-wide free list": one extent at
offset 0 whose header and payload span the pool. -/
def fs_init (c : Config) : FS :=
  { free_list := 0,
    nodes := fun i => if i = 0 then rootNode else zeroNode,
    pool := wr16 (wr16 (fun _ => 0) (0 + EXT_SIZE_OFS) (FS_DATA_POOL_SIZE c - sizeof_fs_extent_t))
              (0 + EXT_NEXT_OFS) FS_NULL_OFFSET,
    free_nodes := (List.range c.FS_MAX_NODES).tail }

/-- Modelled from the spec: `releaseChain`, whose body is missing from the
header: "walks the given chain, returning every extent to the free list", without
coalescing.  Each extent is pushed on the free list; `none` when the loop has not
ended after `fuel` iterations. -/
def fs_release_chain : Nat → FS → Nat → Option FS
  | 0, _, _ => none
  | fuel + 1, fs, cur =>
    if cur = FS_NULL_OFFSET then some fs
    else
      fs_release_chain fuel
        { fs with pool := wr16 fs.pool (cur + EXT_NEXT_OFS) fs.free_list, free_list := cur }
        (ext_next fs.pool cur)

/-- Modelled from the spec: releasing the content of a node, a step of
`fs_write_file` and `fs_delete_node`, whose bodies are missing from the header:
"releases the file's current chain".  A chain covers "exactly size bytes", so a
node of size 0 has no extent: its head offset is not read, whether it is the
null offset or still zero from the creation of the node ("zero-initializes
content fields"), and nothing is released.  Afterwards the node is empty. -/
def fs_release_content (c : Config) (fs : FS) (node : Nat) : Option FS :=
  if (fs.nodes node).size = 0 then some fs
  else
    match fs_release_chain (FS_DATA_POOL_SIZE c) fs (fs.nodes node).data_offset with
    | none => none
    | some fs1 =>
      some (fs1.setNode node
        { fs1.nodes node with size := 0, data_offset := FS_NULL_OFFSET })

/-- Modelled from the spec: the walk of `allocateChain` over the free list,
whose body is missing from the header: extents are consumed in list order until
one covers what is still needed.  The result is that last extent and the number
of bytes it has to hold; `some none` when the list ends first (NoSpace), `none`
when the loop has not ended after `fuel` iterations. -/
def fs_find_last (pool : Nat → Nat) : Nat → Nat → Nat → Option (Option (Nat × Nat))
  | 0, _, _ => none
  | fuel + 1, cur, need =>
    if cur = FS_NULL_OFFSET then some none
    else if need ≤ ext_size pool cur then some (some (cur, need))
    else fs_find_last pool fuel (ext_next pool cur) (need - ext_size pool cur)

/-- Modelled from the spec: `allocateChain(size)`, whose body is missing from
the header: "walks the free list splitting/consuming extents to cover exactly
size bytes; fails NoSpace if no single pass finds sufficient free capacity".  The
chain is the consumed front of the free list, cut after the last extent; the
last extent is split when what remains of it exceeds one extent header.  A
request of zero bytes takes no extent.  The result is the head offset (`none`
for NoSpace) and the region afterwards. -/
def fs_alloc_chain (c : Config) (fs : FS) (size : Nat) : Option (Option Nat × FS) :=
  if size = 0 then some (some FS_NULL_OFFSET, fs)
  else
    match fs_find_last fs.pool (FS_DATA_POOL_SIZE c) fs.free_list size with
    | none => none
    | some none => some (none, fs)
    | some (some (last, need)) =>
      let s := ext_size fs.pool last
      let nxt := ext_next fs.pool last
      if s - need > sizeof_fs_extent_t then
        let rest := ext_data last + need
        let pool1 := wr16 (wr16 fs.pool (rest + EXT_SIZE_OFS) (s - need - sizeof_fs_extent_t))
          (rest + EXT_NEXT_OFS) nxt
        let pool2 := wr16 (wr16 pool1 (last + EXT_SIZE_OFS) need)
          (last + EXT_NEXT_OFS) FS_NULL_OFFSET
        some (some fs.free_list, { fs with free_list := rest, pool := pool2 })
      else
        some (some fs.free_list,
          { fs with free_list := nxt,
                    pool := wr16 fs.pool (last + EXT_NEXT_OFS) FS_NULL_OFFSET })

/-- Modelled from the spec: the copy loop of `fs_write_file`, whose body is
missing from the header: the bytes `d` are copied into the payloads of the chain
starting at `cur`, extent by extent. -/
def fs_copy_in : Nat → (Nat → Nat) → Nat → List Nat → Option (Nat → Nat)
  | 0, _, _, _ => none
  | fuel + 1, pool, cur, d =>
    if d = [] then some pool
    else if cur = FS_NULL_OFFSET then some pool
    else
      fs_copy_in fuel (writeBytes pool (ext_data cur) (d.take (ext_size pool cur)))
        (ext_next pool cur) (d.drop (ext_size pool cur))

/-- Modelled from the spec: the copy loop of `fs_read_file`, whose body is
missing from the header: "copies min(file.size, bufferCapacity) bytes by walking
the chain in order".  Returns the bytes copied. -/
def fs_copy_out (pool : Nat → Nat) : Nat → Nat → Nat → Option (List Nat)
  | 0, _, _ => none
  | fuel + 1, cur, need =>
    if need = 0 then some []
    else if cur = FS_NULL_OFFSET then some []
    else
      match fs_copy_out pool fuel (ext_next pool cur) (need - min (ext_size pool cur) need) with
      | none => none
      | some bs => some (readBytes pool (ext_data cur) (min (ext_size pool cur) need) ++ bs)

/-- Modelled from the spec: `fs_write_file(file, data, size)`, whose body is
missing from the header: "fails PermissionDenied without write bit; fails
NotAFile on a directory; releases the file's current chain, allocates a new chain
sized exactly to size, copies the bytes in, updates the node's size field".
When the allocation fails the file is left empty.  The result is the error
(`none` for success) and the region afterwards. -/
def fs_write_file (c : Config) (fs : FS) (file : Nat) (data : List Nat) (size : Nat) :
    Option (Option FsError × FS) :=
  if (fs.nodes file).perms.write = 0 then some (some FsError.PermissionDenied, fs)
  else if (fs.nodes file).perms.is_directory ≠ 0 then some (some FsError.NotAFile, fs)
  else
    match fs_release_content c fs file with
    | none => none
    | some fs1 =>
      match fs_alloc_chain c fs1 size with
      | none => none
      | some (none, fs2) => some (some FsError.NoSpace, fs2)
      | some (some head, fs2) =>
        match fs_copy_in (FS_DATA_POOL_SIZE c) fs2.pool head (data.take size) with
        | none => none
        | some pool3 =>
          some (none,
            { fs2 with pool := pool3 }.setNode file
              { fs2.nodes file with size := size, data_offset := head })

/-- Modelled from the spec: `fs_read_file(file, buffer, buffer_size)`, whose body
is missing from the header: "fails PermissionDenied without read bit; fails
NotAFile on a directory; copies min(file.size, bufferCapacity) bytes by walking
the chain in order; returns the count copied".  The result is the error (`none`
for success), the count returned and the buffer afterwards. -/
def fs_read_file (c : Config) (fs : FS) (file : Nat) (buffer : List Nat) (buffer_size : Nat) :
    Option (Option FsError × Nat × List Nat) :=
  if (fs.nodes file).perms.read = 0 then some (some FsError.PermissionDenied, 0, buffer)
  else if (fs.nodes file).perms.is_directory ≠ 0 then some (some FsError.NotAFile, 0, buffer)
  else
    match fs_copy_out fs.pool (FS_DATA_POOL_SIZE c) (fs.nodes file).data_offset
        (min (fs.nodes file).size buffer_size) with
    | none => none
    | some bs => some (none, bs.length, bs ++ buffer.drop bs.length)

/-- Modelled from the spec: the duplicate-name scan of the create and rename
operations, whose bodies are missing from the header: an "exact, case-sensitive
match against an existing sibling", walking the sibling chain from `cur` and
leaving out the entry `skip`; `none` when the loop has not ended after `fuel`
iterations. -/
def fs_name_taken (nodes : Nat → fs_node_t) (name : List Nat) (skip : Nat) :
    Nat → Nat → Option Bool
  | 0, _ => none
  | fuel + 1, cur =>
    if cur = FS_INVALID_IDX then some false
    else if cur ≠ skip ∧ (nodes cur).name = name then some true
    else fs_name_taken nodes name skip fuel (nodes cur).next_sibling

/-- Modelled from the spec: `create(parent, name, perms, isDirectory)`, the
common body of `fs_create_file` and `fs_create_directory`, missing from the
header: "fails NotADirectory if parent's is-directory flag is unset; fails
NameTooLong if name exceeds the maximum length; fails DuplicateName on an exact,
case-sensitive match against an existing sibling; fails NoSpace if no free slot
remains; otherwise allocates a slot, zero-initializes content fields, and links
the new node as the parent's new first child, demoting the previous first child
to its next sibling".  The result is the error (`none` for success), the index
of the new node (`FS_INVALID_IDX` on failure) and the region afterwards. -/
def fs_create_node (c : Config) (fs : FS) (parent : Nat) (name : List Nat)
    (perms : fs_perms_t) (is_dir : Nat) : Option (Option FsError × Nat × FS) :=
  if (fs.nodes parent).perms.is_directory = 0 then
    some (some FsError.NotADirectory, FS_INVALID_IDX, fs)
  else if name.length > FS_NAME_MAX_LEN then
    some (some FsError.NameTooLong, FS_INVALID_IDX, fs)
  else
    match fs_name_taken fs.nodes name FS_INVALID_IDX (c.FS_MAX_NODES + 1)
        (fs.nodes parent).first_child with
    | none => none
    | some true => some (some FsError.DuplicateName, FS_INVALID_IDX, fs)
    | some false =>
      match fs.free_nodes with
      | [] => some (some FsError.NoSpace, FS_INVALID_IDX, fs)
      | slot :: rest =>
        let fs1 := { fs with free_nodes := rest }.setNode slot
          { perms := perms.setIsDirectory is_dir, name := name, parent := parent,
            first_child := FS_INVALID_IDX,
            next_sibling := (fs.nodes parent).first_child, size := 0, data_offset := 0 }
        some (none, slot,
          fs1.setNode parent { fs1.nodes parent with first_child := slot })

/-- Modelled from the spec: `fs_create_file(parent, name, perms)`, whose body is
missing from the header: a create with the is-directory flag clear. -/
def fs_create_file (c : Config) (fs : FS) (parent : Nat) (name : List Nat)
    (perms : fs_perms_t) : Option (Option FsError × Nat × FS) :=
  fs_create_node c fs parent name perms 0

/-- Modelled from the spec: `fs_create_directory(parent, name, perms)`, whose
body is missing from the header: a create with the is-directory flag set. -/
def fs_create_directory (c : Config) (fs : FS) (parent : Nat) (name : List Nat)
    (perms : fs_perms_t) : Option (Option FsError × Nat × FS) :=
  fs_create_node c fs parent name perms 1

/-- Modelled from the spec: the recursion of `fs_delete_node`, whose body is
missing from the header: "if the node is a directory, recursively deletes every
descendant first (releasing their extent chains and slots); unlinks the node from
its parent's sibling chain by locating its predecessor; returns the slot to the
free pool".  While the directory has a first child, that child is deleted;
`none` when the recursion has not ended after `fuel` steps. -/
def fs_delete_subtree (c : Config) : Nat → FS → Nat → Option FS
  | 0, _, _ => none
  | fuel + 1, fs, node =>
    if (fs.nodes node).perms.is_directory ≠ 0 ∧ (fs.nodes node).first_child ≠ FS_INVALID_IDX then
      match fs_delete_subtree c fuel fs (fs.nodes node).first_child with
      | none => none
      | some fs1 => fs_delete_subtree c fuel fs1 node
    else
      match fs_release_content c fs node with
      | none => none
      | some fs1 =>
        match fs_detach c fs1 node with
        | none => none
        | some fs2 => some { fs2 with free_nodes := node :: fs2.free_nodes }

/-- Modelled from the spec: `fs_delete_node(node)`, whose body is missing from
the header: "fails InvalidOperation on the root; requires write permission on the
node's parent, else PermissionDenied", then deletes the node with all its
descendants. -/
def fs_delete_node (c : Config) (fs : FS) (node : Nat) : Option (Option FsError × FS) :=
  if node = 0 then some (some FsError.InvalidOperation, fs)
  else if (fs.nodes (fs.nodes node).parent).perms.write = 0 then
    some (some FsError.PermissionDenied, fs)
  else
    match fs_delete_subtree c (c.FS_MAX_NODES + 1) fs node with
    | none => none
    | some fs1 => some (none, fs1)

/-- Modelled from the spec: `fs_rename_node(node, new_name)`, whose body is
missing from the header: "validates length and duplicate-name rules against
current siblings excluding itself; overwrites the name". -/
def fs_rename_node (c : Config) (fs : FS) (node : Nat) (new_name : List Nat) :
    Option (Option FsError × FS) :=
  if new_name.length > FS_NAME_MAX_LEN then some (some FsError.NameTooLong, fs)
  else
    match fs_name_taken fs.nodes new_name node (c.FS_MAX_NODES + 1)
        (fs.nodes (fs.nodes node).parent).first_child with
    | none => none
    | some true => some (some FsError.DuplicateName, fs)
    | some false => some (none, fs.setNode node { fs.nodes node with name := new_name })

/-- Modelled from the spec: `fs_chmod_node(node, new_perms)`, whose body is
missing from the header: "overwrites permission bits except the is-directory bit,
which is immutable; attempting to change it fails InvalidOperation". -/
def fs_chmod_node (fs : FS) (node : Nat) (new_perms : fs_perms_t) : Option FsError × FS :=
  if new_perms.is_directory ≠ (fs.nodes node).perms.is_directory then
    (some FsError.InvalidOperation, fs)
  else (none, fs.setNode node { fs.nodes node with perms := new_perms })

/-- A call of a filesystem operation that changes the region. -/
inductive FsCall where
  | create_file (parent : Nat) (name : List Nat) (perms : fs_perms_t)
  | create_directory (parent : Nat) (name : List Nat) (perms : fs_perms_t)
  | delete_node (node : Nat)
  | move_node (node new_parent : Nat)
  | rename_node (node : Nat) (new_name : List Nat)
  | chmod_node (node : Nat) (new_perms : fs_perms_t)
  | write_file (file : Nat) (data : List Nat) (size : Nat)

/-- The region after one call, whether it succeeded or failed; `none` when the
call does not end. -/
def fsStep (c : Config) (fs : FS) : FsCall → Option FS
  | .create_file parent name perms => (fs_create_file c fs parent name perms).map (·.2.2)
  | .create_directory parent name perms =>
    (fs_create_directory c fs parent name perms).map (·.2.2)
  | .delete_node node => (fs_delete_node c fs node).map (·.2)
  | .move_node node new_parent => (fs_move_node c fs node new_parent).map (·.2)
  | .rename_node node new_name => (fs_rename_node c fs node new_name).map (·.2)
  | .chmod_node node new_perms => some (fs_chmod_node fs node new_perms).2
  | .write_file file data size => (fs_write_file c fs file data size).map (·.2)

/-- The region after a sequence of calls starting in `fs`. -/
def fsRunFrom (c : Config) : FS → List FsCall → Option FS
  | fs, [] => some fs
  | fs, call :: rest =>
    match fsStep c fs call with
    | none => none
    | some fs1 => fsRunFrom c fs1 rest

/-- The region after `fs_init` and a sequence of calls. -/
def fsRun (c : Config) (calls : List FsCall) : Option FS := fsRunFrom c (fs_init c) calls

/-- Total payload capacity of the chain that starts at `cur`. -/
def fs_chain_capacity (pool : Nat → Nat) : Nat → Nat → Nat
  | 0, _ => 0
  | fuel + 1, cur =>
    if cur = FS_NULL_OFFSET then 0
    else ext_size pool cur + fs_chain_capacity pool fuel (ext_next pool cur)

/-- What the extent pool can hold for `file`: the payload capacity of the free
extents plus that of the extents the file holds now, which a write releases
first. -/
def fs_available (c : Config) (fs : FS) (file : Nat) : Nat :=
  fs_chain_capacity fs.pool (FS_DATA_POOL_SIZE c) fs.free_list +
    (if (fs.nodes file).size = 0 then 0
     else fs_chain_capacity fs.pool (FS_DATA_POOL_SIZE c) (fs.nodes file).data_offset)

/-- The extents `exts` = (offset, size) are linked in this order from `h`, the
`next` word of the last one being `t`. -/
def IsSeg (pool : Nat → Nat) : Nat → List (Nat × Nat) → Nat → Prop
  | h, [], t => h = t
  | h, e :: rest, t =>
    h = e.1 ∧ e.1 ≠ FS_NULL_OFFSET ∧ ext_size pool e.1 = e.2 ∧
      IsSeg pool (ext_next pool e.1) rest t

/-- The extents `exts` form the whole chain that starts at `h`. -/
def IsChain (pool : Nat → Nat) (h : Nat) (exts : List (Nat × Nat)) : Prop :=
  IsSeg pool h exts FS_NULL_OFFSET

/-- Two extents (header and payload) do not overlap. -/
def ExtDisjoint (e1 e2 : Nat × Nat) : Prop :=
  ext_data e1.1 + e1.2 ≤ e2.1 ∨ ext_data e2.1 + e2.2 ≤ e1.1

/-- The extents lie inside a pool of `P` bytes and do not overlap each other. -/
def Separated (P : Nat) (exts : List (Nat × Nat)) : Prop :=
  exts.Pairwise ExtDisjoint ∧ ∀ e ∈ exts, ext_data e.1 + e.2 ≤ P

/-- Total payload capacity of a list of extents. -/
def extCapacity (exts : List (Nat × Nat)) : Nat := (exts.map Prod.snd).sum

/-- A file node with read and write permission: entry `file` of the table with
the read and write bits set and the is-directory bit clear. -/
def IsReadWriteFile (fs : FS) (file : Nat) : Prop :=
  (fs.nodes file).perms.read = 1 ∧ (fs.nodes file).perms.write = 1 ∧
    (fs.nodes file).perms.is_directory = 0

/-- The payload bytes of a list of extents, in chain order. -/
def chainBytes (pool : Nat → Nat) : List (Nat × Nat) → List Nat
  | [] => []
  | e :: rest => readBytes pool (ext_data e.1) e.2 ++ chainBytes pool rest

/-- The offset `x` lies in the payload of the extent `e`. -/
def InPayload (e : Nat × Nat) (x : Nat) : Prop := ext_data e.1 ≤ x ∧ x < ext_data e.1 + e.2

/-- The offset `x` lies in the header of the extent `e`. -/
def InHeader (e : Nat × Nat) (x : Nat) : Prop := e.1 ≤ x ∧ x < ext_data e.1

instance (e1 e2 : Nat × Nat) : Decidable (ExtDisjoint e1 e2) := by
  unfold ExtDisjoint; infer_instance

instance (P : Nat) (exts : List (Nat × Nat)) : Decidable (Separated P exts) := by
  unfold Separated; infer_instance

/-- Whether the extents are linked as stated can be checked by reading the pool. -/
def decIsSeg (pool : Nat → Nat) :
    (h : Nat) → (exts : List (Nat × Nat)) → (t : Nat) → Decidable (IsSeg pool h exts t)
  | h, [], t => inferInstanceAs (Decidable (h = t))
  | h, e :: rest, t =>
    have := decIsSeg pool (ext_next pool e.1) rest t
    inferInstanceAs (Decidable (h = e.1 ∧ e.1 ≠ FS_NULL_OFFSET ∧ ext_size pool e.1 = e.2 ∧
      IsSeg pool (ext_next pool e.1) rest t))

instance (pool : Nat → Nat) (h : Nat) (exts : List (Nat × Nat)) (t : Nat) :
    Decidable (IsSeg pool h exts t) := decIsSeg pool h exts t

instance (pool : Nat → Nat) (h : Nat) (exts : List (Nat × Nat)) :
    Decidable (IsChain pool h exts) := decIsSeg pool h exts FS_NULL_OFFSET


/-- The extents of the chains `chains 0`, ..., `chains (B - 1)`. -/
def ownedExts (chains : Nat → List (Nat × Nat)) : Nat → List (Nat × Nat)
  | 0 => []
  | B + 1 => ownedExts chains B ++ chains B

/-- The extent `e'` lies inside the extent `e`. -/
def Within (e' e : Nat × Nat) : Prop :=
  e.1 ≤ e'.1 ∧ ext_data e'.1 + e'.2 ≤ ext_data e.1 + e.2

/-- The offset `x` lies in the extent `e` (header or payload). -/
def InRegion (e : Nat × Nat) (x : Nat) : Prop := e.1 ≤ x ∧ x < ext_data e.1 + e.2

/-- The extent pool is well-formed: every node with content heads a chain of
extents, the free list is a chain of extents, and all these extents lie in the
pool and do not overlap. -/
def FsInv (c : Config) (fs : FS) : Prop :=
  ∃ (chains : Nat → List (Nat × Nat)) (F : List (Nat × Nat)) (B : Nat),
    (∀ i, (fs.nodes i).size ≠ 0 → IsChain fs.pool (fs.nodes i).data_offset (chains i)) ∧
    (∀ i, (fs.nodes i).size = 0 → chains i = []) ∧
    (∀ i, B ≤ i → chains i = []) ∧
    IsChain fs.pool fs.free_list F ∧
    Separated (FS_DATA_POOL_SIZE c) (ownedExts chains B ++ F)

/-- The operation leading from `fs` to `fs'` touched neither the pool nor the
free-list head nor the content fields of any node. -/
def SameContent (fs fs' : FS) : Prop :=
  fs'.pool = fs.pool ∧ fs'.free_list = fs.free_list ∧
    ∀ i, (fs'.nodes i).size = (fs.nodes i).size ∧
      (fs'.nodes i).data_offset = (fs.nodes i).data_offset

/-- The region after `fs_init` and the creation of the read-write file
"note.txt" under the root. -/
def exampleFileCalls : List FsCall :=
  [.create_file 0 [110, 111, 116, 101, 46, 116, 120, 116] PERMS_RW]

/-- The calls of `exampleFileCalls` followed by a write of the three bytes
1, 2, 3 to the file. -/
def exampleWrittenCalls : List FsCall :=
  exampleFileCalls ++ [.write_file 1 [1, 2, 3] 3]

/-- The region reached by `exampleFileCalls`. -/
def exampleFileFs (c : Config) : FS := (fsRun c exampleFileCalls).getD (fs_init c)

/-- The region reached by `exampleWrittenCalls`. -/
def exampleWrittenFs (c : Config) : FS := (fsRun c exampleWrittenCalls).getD (fs_init c)

/-- The region after `fs_init` and the creation of the directory "docs" under
the root and of the directory "sub" under "docs": entry 1 is a directory under
the root and entry 2 a directory under entry 1. -/
def exampleTreeFs (c : Config) : FS :=
  (fsRun c [.create_directory 0 [100, 111, 99, 115] PERMS_RWX,
            .create_directory 1 [115, 117, 98] PERMS_RWX]).getD (fs_init c)

/-! # Theorems -/

/-! ## Memory map -/

/-- C1: in both build configurations the filesystem region starts where the heap
arena ends, and is tiled in order by the 2-byte free-list head word (offset 0),
the node table (offset 2, `FS_MAX_NODES` records of 20 bytes, `FS_ROOT` being
entry 0) and the extent pool (offset `2 + FS_NODE_TABLE_SIZE`); the pool size is
computed without unsigned underflow, exceeds one extent header, and the three
parts add up to `FS_MAX_SIZE`. -/
theorem C1_fs_region_tiling :
    (HEAP_START_ADDR cwii = 0x9C04 ∧ cwii.HEAP_MAX_SIZE = 0x1400 ∧ cwii.FS_MAX_SIZE = 0x3800
      ∧ cwii.FS_MAX_NODES = 255) ∧
    (HEAP_START_ADDR cwx = 0xD604 ∧ cwx.HEAP_MAX_SIZE = 0xA00 ∧ cwx.FS_MAX_SIZE = 0x1000
      ∧ cwx.FS_MAX_NODES = 64) ∧
    sizeof_word = 2 ∧ sizeof_fs_node_t = 20 ∧ sizeof_fs_extent_t = 4 ∧
    (∀ c ∈ configs,
      FS_START_ADDR c = HEAP_START_ADDR c + c.HEAP_MAX_SIZE ∧
      FS_START_ADDR c = HEAP_END c ∧
      FS_FREE_LIST_ADDR c = FS_START_ADDR c + 0 ∧
      FS_NODES c = FS_FREE_LIST_ADDR c + sizeof_word ∧
      FS_NODES c = FS_START_ADDR c + 2 ∧
      FS_ROOT c = FS_NODES c ∧
      FS_NODE_TABLE_SIZE c = 20 * c.FS_MAX_NODES ∧
      FS_DATA_POOL c = FS_NODES c + FS_NODE_TABLE_SIZE c ∧
      FS_DATA_POOL c = FS_START_ADDR c + (2 + FS_NODE_TABLE_SIZE c) ∧
      sizeof_word + FS_NODE_TABLE_SIZE c ≤ c.FS_MAX_SIZE ∧
      (FS_DATA_POOL_SIZE c : Int) =
        (c.FS_MAX_SIZE : Int) - (sizeof_word : Int) - (FS_NODE_TABLE_SIZE c : Int) ∧
      2 + FS_NODE_TABLE_SIZE c + FS_DATA_POOL_SIZE c = c.FS_MAX_SIZE ∧
      FS_DATA_POOL c + FS_DATA_POOL_SIZE c = FS_END c ∧
      sizeof_fs_extent_t < FS_DATA_POOL_SIZE c) ∧
    (FS_DATA_POOL cwii = 0xC3F2 ∧ FS_DATA_POOL_SIZE cwii = 9234) ∧
    (FS_DATA_POOL cwx = 0xE506 ∧ FS_DATA_POOL_SIZE cwx = 2814) := by
  decide

/-- C4: in both configurations every node-table slot index `i < FS_MAX_NODES`
fits in the one-byte `parent` / `first_child` / `next_sibling` fields and differs
from the sentinel `FS_INVALID_IDX`; the root index 0 is such a slot. -/
theorem C4_invalid_idx_not_a_slot (c : Config) (hc : c ∈ configs) (i : Nat)
    (hi : i < c.FS_MAX_NODES) :
    i < 2 ^ (8 * byteT.size) ∧ i ≠ FS_INVALID_IDX ∧
    FS_INVALID_IDX = 0xFF ∧ FS_INVALID_IDX < 2 ^ (8 * byteT.size) ∧
    0 < c.FS_MAX_NODES ∧ (0 : Nat) ≠ FS_INVALID_IDX ∧
    c.FS_MAX_NODES ≤ FS_INVALID_IDX ∧
    (fs_node_t_members 2).drop 2 = [byteT, byteT, byteT, wordT 2, wordT 2] := by
  have h : c.FS_MAX_NODES ≤ 255 := by
    simp only [configs, List.mem_cons, List.mem_singleton, List.not_mem_nil, or_false] at hc
    rcases hc with rfl | rfl <;> decide
  have h0 : 0 < c.FS_MAX_NODES := by omega
  refine ⟨?_, ?_, rfl, by decide, h0, by decide, h, rfl⟩
  · show i < 2 ^ (8 * 1)
    omega
  · show i ≠ 255
    omega

/-- Witness for C4: slot 254 of the default table and slot 63 of the IS_CWX table. -/
theorem C4_invalid_idx_not_a_slot_witness :
    (254 < 2 ^ (8 * byteT.size) ∧ 254 ≠ FS_INVALID_IDX) ∧
    (63 < 2 ^ (8 * byteT.size) ∧ 63 ≠ FS_INVALID_IDX) :=
  ⟨⟨(C4_invalid_idx_not_a_slot cwii (by decide) 254 (by decide)).1,
    (C4_invalid_idx_not_a_slot cwii (by decide) 254 (by decide)).2.1⟩,
   ⟨(C4_invalid_idx_not_a_slot cwx (by decide) 63 (by decide)).1,
    (C4_invalid_idx_not_a_slot cwx (by decide) 63 (by decide)).2.1⟩⟩

/-- C8: in both configurations every offset `o < FS_DATA_POOL_SIZE` fits in the
16-bit `next` / `data_offset` / free-list-head words and differs from the null
offset `FS_NULL_OFFSET`. -/
theorem C8_null_offset_not_in_pool (c : Config) (hc : c ∈ configs) (o : Nat)
    (ho : o < FS_DATA_POOL_SIZE c) :
    o < 2 ^ (8 * sizeof_word) ∧ o ≠ FS_NULL_OFFSET ∧
    FS_NULL_OFFSET = 0xFFFF ∧ FS_NULL_OFFSET < 2 ^ (8 * sizeof_word) ∧
    FS_DATA_POOL_SIZE c ≤ FS_NULL_OFFSET ∧
    FS_DATA_POOL_SIZE cwii = 9234 ∧ FS_DATA_POOL_SIZE cwx = 2814 ∧
    fs_extent_t_members 2 = [wordT 2, wordT 2] ∧
    (fs_node_t_members 2).drop 5 = [wordT 2, wordT 2] := by
  have h : FS_DATA_POOL_SIZE c ≤ 9234 := by
    simp only [configs, List.mem_cons, List.mem_singleton, List.not_mem_nil, or_false] at hc
    rcases hc with rfl | rfl <;> decide
  refine ⟨?_, ?_, rfl, by decide, ?_, by decide, by decide, rfl, rfl⟩
  · show o < 2 ^ (8 * 2)
    omega
  · show o ≠ 65535
    omega
  · show FS_DATA_POOL_SIZE c ≤ 65535
    omega

/-- Witness for C8: the last pool offset of each configuration. -/
theorem C8_null_offset_not_in_pool_witness :
    (9233 < 2 ^ (8 * sizeof_word) ∧ 9233 ≠ FS_NULL_OFFSET) ∧
    (2813 < 2 ^ (8 * sizeof_word) ∧ 2813 ≠ FS_NULL_OFFSET) :=
  ⟨⟨(C8_null_offset_not_in_pool cwii (by decide) 9233 (by decide)).1,
    (C8_null_offset_not_in_pool cwii (by decide) 9233 (by decide)).2.1⟩,
   ⟨(C8_null_offset_not_in_pool cwx (by decide) 2813 (by decide)).1,
    (C8_null_offset_not_in_pool cwx (by decide) 2813 (by decide)).2.1⟩⟩

/-- C9: in both configurations the heap arena and the filesystem region are
disjoint, both end inside the 16-bit address space (the filesystem region ends at
0xE804 by default and 0xF004 under IS_CWX), and no byte of any hardware register
the header defines (Write2RealScreen, the special-function registers
0xF008..0xF046, the RTC registers 0xF0C0..0xF0C7, BufSelSFR) lies in either. -/
theorem C9_regions_disjoint_from_registers :
    (∀ c ∈ configs,
      HEAP_START_ADDR c < HEAP_END c ∧ HEAP_END c ≤ FS_START_ADDR c ∧
      FS_START_ADDR c < FS_END c ∧ FS_END c ≤ 2 ^ 16 ∧
      (∀ r ∈ hwRegs c, ∀ a ∈ r.bytes,
        ¬ inRange (HEAP_START_ADDR c) (HEAP_END c) a ∧
        ¬ inRange (FS_START_ADDR c) (FS_END c) a)) ∧
    FS_END cwii = 0xE804 ∧ FS_END cwx = 0xF004 ∧
    Write2RealScreen cwii = 0x9000 + 0xC02 ∧ Write2RealScreen cwx = 0xD000 + 0x602 ∧
    (∀ r ∈ sfrRegs, 0xF008 ≤ r.addr ∧ r.addr ≤ 0xF046) ∧
    (∀ r ∈ rtcRegs, 0xF0C0 ≤ r.addr ∧ r.addr ≤ 0xF0C7) := by
  decide

/-! ## Permission byte -/

theorem perms_read_eq (p : fs_perms_t) : p.read = p.raw % 2 := by
  show p.raw / 2 ^ 0 % 2 ^ 1 = p.raw % 2
  simp

theorem perms_write_eq (p : fs_perms_t) : p.write = p.raw / 2 % 2 := by
  show p.raw / 2 ^ 1 % 2 ^ 1 = p.raw / 2 % 2
  simp

theorem perms_execute_eq (p : fs_perms_t) : p.execute = p.raw / 4 % 2 := by
  show p.raw / 2 ^ 2 % 2 ^ 1 = p.raw / 4 % 2
  simp

theorem perms_is_directory_eq (p : fs_perms_t) : p.is_directory = p.raw / 8 % 2 := by
  show p.raw / 2 ^ 3 % 2 ^ 1 = p.raw / 8 % 2
  simp

theorem perms_reserved_eq (p : fs_perms_t) : p.reserved = p.raw / 16 % 16 := by
  show p.raw / 2 ^ 4 % 2 ^ 4 = p.raw / 16 % 16
  simp

theorem perms_setRead_raw (p : fs_perms_t) (v : Nat) :
    (p.setRead v).raw = p.raw - p.raw % 2 + v % 2 := by
  show p.raw - p.raw / 2 ^ 0 % 2 ^ 1 * 2 ^ 0 + v % 2 ^ 1 * 2 ^ 0 = _
  simp

theorem perms_setWrite_raw (p : fs_perms_t) (v : Nat) :
    (p.setWrite v).raw = p.raw - p.raw / 2 % 2 * 2 + v % 2 * 2 := by
  show p.raw - p.raw / 2 ^ 1 % 2 ^ 1 * 2 ^ 1 + v % 2 ^ 1 * 2 ^ 1 = _
  simp

theorem perms_setExecute_raw (p : fs_perms_t) (v : Nat) :
    (p.setExecute v).raw = p.raw - p.raw / 4 % 2 * 4 + v % 2 * 4 := by
  show p.raw - p.raw / 2 ^ 2 % 2 ^ 1 * 2 ^ 2 + v % 2 ^ 1 * 2 ^ 2 = _
  simp

theorem perms_setIsDirectory_raw (p : fs_perms_t) (v : Nat) :
    (p.setIsDirectory v).raw = p.raw - p.raw / 8 % 2 * 8 + v % 2 * 8 := by
  show p.raw - p.raw / 2 ^ 3 % 2 ^ 1 * 2 ^ 3 + v % 2 ^ 1 * 2 ^ 3 = _
  simp

/-- C2: `fs_perms_t` is one byte whose bit 0 is read, bit 1 write, bit 2 execute,
bit 3 is-directory and bits 4..7 reserved: for every byte `b`, re-encoding the
decoded fields as `read + 2*write + 4*execute + 8*is_directory + 16*reserved`
gives `b` back, and storing a bit `v` into any one of the four flags yields a
byte whose flag is `v` while the other three flags and the reserved bits are
unchanged. -/
theorem C2_perms_bits (b : Nat) (hb : b < 256) (v : Nat) (hv : v < 2) :
    permsT.size = 1 ∧ permFieldWidths.sum = 8 ∧
    (⟨b⟩ : fs_perms_t).read = b % 2 ∧
    (⟨b⟩ : fs_perms_t).write = b / 2 % 2 ∧
    (⟨b⟩ : fs_perms_t).execute = b / 4 % 2 ∧
    (⟨b⟩ : fs_perms_t).is_directory = b / 8 % 2 ∧
    (⟨b⟩ : fs_perms_t).reserved = b / 16 ∧
    fs_perms_t.encode (⟨b⟩ : fs_perms_t).read (⟨b⟩ : fs_perms_t).write
      (⟨b⟩ : fs_perms_t).execute (⟨b⟩ : fs_perms_t).is_directory
      (⟨b⟩ : fs_perms_t).reserved = b ∧
    (((⟨b⟩ : fs_perms_t).setRead v).raw < 256 ∧
      ((⟨b⟩ : fs_perms_t).setRead v).read = v ∧
      ((⟨b⟩ : fs_perms_t).setRead v).write = (⟨b⟩ : fs_perms_t).write ∧
      ((⟨b⟩ : fs_perms_t).setRead v).execute = (⟨b⟩ : fs_perms_t).execute ∧
      ((⟨b⟩ : fs_perms_t).setRead v).is_directory = (⟨b⟩ : fs_perms_t).is_directory ∧
      ((⟨b⟩ : fs_perms_t).setRead v).reserved = (⟨b⟩ : fs_perms_t).reserved) ∧
    (((⟨b⟩ : fs_perms_t).setWrite v).raw < 256 ∧
      ((⟨b⟩ : fs_perms_t).setWrite v).read = (⟨b⟩ : fs_perms_t).read ∧
      ((⟨b⟩ : fs_perms_t).setWrite v).write = v ∧
      ((⟨b⟩ : fs_perms_t).setWrite v).execute = (⟨b⟩ : fs_perms_t).execute ∧
      ((⟨b⟩ : fs_perms_t).setWrite v).is_directory = (⟨b⟩ : fs_perms_t).is_directory ∧
      ((⟨b⟩ : fs_perms_t).setWrite v).reserved = (⟨b⟩ : fs_perms_t).reserved) ∧
    (((⟨b⟩ : fs_perms_t).setExecute v).raw < 256 ∧
      ((⟨b⟩ : fs_perms_t).setExecute v).read = (⟨b⟩ : fs_perms_t).read ∧
      ((⟨b⟩ : fs_perms_t).setExecute v).write = (⟨b⟩ : fs_perms_t).write ∧
      ((⟨b⟩ : fs_perms_t).setExecute v).execute = v ∧
      ((⟨b⟩ : fs_perms_t).setExecute v).is_directory = (⟨b⟩ : fs_perms_t).is_directory ∧
      ((⟨b⟩ : fs_perms_t).setExecute v).reserved = (⟨b⟩ : fs_perms_t).reserved) ∧
    (((⟨b⟩ : fs_perms_t).setIsDirectory v).raw < 256 ∧
      ((⟨b⟩ : fs_perms_t).setIsDirectory v).read = (⟨b⟩ : fs_perms_t).read ∧
      ((⟨b⟩ : fs_perms_t).setIsDirectory v).write = (⟨b⟩ : fs_perms_t).write ∧
      ((⟨b⟩ : fs_perms_t).setIsDirectory v).execute = (⟨b⟩ : fs_perms_t).execute ∧
      ((⟨b⟩ : fs_perms_t).setIsDirectory v).is_directory = v ∧
      ((⟨b⟩ : fs_perms_t).setIsDirectory v).reserved = (⟨b⟩ : fs_perms_t).reserved) := by
  simp only [perms_read_eq, perms_write_eq, perms_execute_eq, perms_is_directory_eq,
    perms_reserved_eq, perms_setRead_raw, perms_setWrite_raw, perms_setExecute_raw,
    perms_setIsDirectory_raw, fs_perms_t.encode]
  refine ⟨rfl, by decide, trivial, trivial, trivial, trivial, by omega, by omega, ?_, ?_, ?_, ?_⟩ <;>
    refine ⟨by omega, by omega, by omega, by omega, by omega, by omega⟩

/-- Witness for C2: the byte 0xA5 with the stored bit 1. -/
theorem C2_perms_bits_witness :
    fs_perms_t.encode (⟨0xA5⟩ : fs_perms_t).read (⟨0xA5⟩ : fs_perms_t).write
      (⟨0xA5⟩ : fs_perms_t).execute (⟨0xA5⟩ : fs_perms_t).is_directory
      (⟨0xA5⟩ : fs_perms_t).reserved = 0xA5 :=
  (C2_perms_bits 0xA5 (by decide) 1 (by decide)).2.2.2.2.2.2.2.1

/-- C3: the presets PERMS_RWX, PERMS_RW, PERMS_R, PERMS_WX, PERMS_W, PERMS_X,
PERMS_RX, PERMS_NONE are the raw bytes 7, 3, 1, 6, 2, 4, 5, 0; each sets exactly
the read/write/execute bits its name lists, has the is-directory and reserved
bits clear, the eight are pairwise distinct and cover all 8 combinations of the
three read/write/execute bits. -/
theorem C3_presets :
    permPresets.map fs_perms_t.raw = [7, 3, 1, 6, 2, 4, 5, 0] ∧
    permPresets.map (fun p => (p.read, p.write, p.execute)) =
      [(1, 1, 1), (1, 1, 0), (1, 0, 0), (0, 1, 1), (0, 1, 0), (0, 0, 1), (1, 0, 1),
       (0, 0, 0)] ∧
    (∀ p ∈ permPresets, p.is_directory = 0 ∧ p.reserved = 0) ∧
    permPresets.Nodup ∧ (permPresets.map fs_perms_t.raw).Nodup ∧
    permPresets.length = 8 ∧
    (∀ r ∈ [0, 1], ∀ w ∈ [0, 1], ∀ x ∈ [0, 1],
      ∃ p ∈ permPresets, p.read = r ∧ p.write = w ∧ p.execute = x) := by
  decide

/-! ## Heap allocator -/

theorem BLOCK_OVERHEAD_eq : BLOCK_OVERHEAD = 6 := by decide

theorem chainSpan_cons (b : block_t) (bs : List block_t) :
    chainSpan (b :: bs) = BLOCK_OVERHEAD + b.size + chainSpan bs := by
  simp [chainSpan]

theorem freeCapacity_cons (b : block_t) (bs : List block_t) :
    freeCapacity (b :: bs) = (if b.free = true then b.size else 0) + freeCapacity bs := by
  cases hb : b.free <;> simp [freeCapacity, List.filter_cons, hb]

theorem usedCapacity_cons (b : block_t) (bs : List block_t) :
    usedCapacity (b :: bs) = (if b.free = true then 0 else b.size) + usedCapacity bs := by
  cases hb : b.free <;> simp [usedCapacity, List.filter_cons, hb]

/-- Every byte of a chain is a free payload byte, an occupied payload byte or a
header byte. -/
theorem chain_accounting (h : List block_t) :
    freeCapacity h + usedCapacity h + BLOCK_OVERHEAD * h.length = chainSpan h := by
  induction h with
  | nil => simp [freeCapacity, usedCapacity, chainSpan]
  | cons b bs ih =>
    rw [freeCapacity_cons, usedCapacity_cons, chainSpan_cons, List.length_cons, ← ih]
    split <;> ring

theorem chainSpan_hallocAt (a req : Nat) (h : List block_t) :
    chainSpan (hallocAt a req h).2 = chainSpan h := by
  induction h generalizing a with
  | nil => simp [hallocAt]
  | cons b bs ih =>
    unfold hallocAt
    split
    · rename_i hfit
      split
      · rename_i hrem
        simp only [chainSpan_cons]
        omega
      · simp only [chainSpan_cons]
    · simp only [chainSpan_cons, ih]

theorem chainSpan_hfreeAt (a ptr : Nat) (h : List block_t) :
    chainSpan (hfreeAt a ptr h) = chainSpan h := by
  induction h generalizing a with
  | nil => simp [hfreeAt]
  | cons b bs ih =>
    unfold hfreeAt
    split
    · simp only [chainSpan_cons]
    · simp only [chainSpan_cons, ih]

theorem chainSpan_hmergeFrom (cur : block_t) (bs : List block_t) :
    chainSpan (hmergeFrom cur bs) = chainSpan (cur :: bs) := by
  induction bs generalizing cur with
  | nil => simp [hmergeFrom]
  | cons b bs ih =>
    unfold hmergeFrom
    split
    · rw [ih]
      simp only [chainSpan_cons]
      omega
    · rw [chainSpan_cons, ih, chainSpan_cons, chainSpan_cons, chainSpan_cons]

theorem chainSpan_hmerge (h : List block_t) : chainSpan (hmerge h) = chainSpan h := by
  cases h with
  | nil => rfl
  | cons b bs => exact chainSpan_hmergeFrom b bs

theorem occupied_hmergeFrom (a : Nat) (cur : block_t) (bs : List block_t) :
    occupied a (hmergeFrom cur bs) = occupied a (cur :: bs) := by
  induction bs generalizing a cur with
  | nil => simp [hmergeFrom]
  | cons b bs ih =>
    unfold hmergeFrom
    split
    · rename_i hf
      rw [ih]
      simp only [occupied, hf.1, hf.2, if_true]
      congr 1
      omega
    · conv_lhs => rw [occupied]
      conv_rhs => rw [occupied]
      rw [ih]

/-- The merge pass keeps the address and the capacity of every occupied block. -/
theorem occupied_hmerge (a : Nat) (h : List block_t) :
    occupied a (hmerge h) = occupied a h := by
  cases h with
  | nil => rfl
  | cons b bs => exact occupied_hmergeFrom a b bs

theorem usedCapacity_eq_occupied (a : Nat) (h : List block_t) :
    usedCapacity h = ((occupied a h).map Prod.snd).sum := by
  induction h generalizing a with
  | nil => simp [usedCapacity, occupied]
  | cons b bs ih =>
    rw [usedCapacity_cons, occupied]
    split
    · simpa using ih _
    · simp only [List.map_cons, List.sum_cons]
      rw [← ih]

theorem noAdjacentFree_hmergeFrom (cur : block_t) (bs : List block_t) :
    noAdjacentFree (hmergeFrom cur bs) ∧
    ∃ s t, hmergeFrom cur bs = ⟨s, cur.free⟩ :: t := by
  induction bs generalizing cur with
  | nil => exact ⟨trivial, cur.size, [], by simp [hmergeFrom]⟩
  | cons b bs ih =>
    unfold hmergeFrom
    split
    · rename_i hf
      obtain ⟨h1, s, t, h2⟩ := ih ⟨cur.size + BLOCK_OVERHEAD + b.size, true⟩
      refine ⟨h1, s, t, ?_⟩
      rw [hf.1]
      exact h2
    · rename_i hf
      obtain ⟨h1, s, t, h2⟩ := ih b
      refine ⟨?_, cur.size, hmergeFrom b bs, rfl⟩
      rw [h2]
      refine ⟨?_, by rw [← h2]; exact h1⟩
      simpa using hf

/-- After the merge pass no two neighbouring blocks are both free. -/
theorem noAdjacentFree_hmerge (h : List block_t) : noAdjacentFree (hmerge h) := by
  cases h with
  | nil => trivial
  | cons b bs => exact (noAdjacentFree_hmergeFrom b bs).1

theorem occupied_length_le (a : Nat) (h : List block_t) :
    (occupied a h).length ≤ h.length := by
  induction h generalizing a with
  | nil => simp [occupied]
  | cons b bs ih =>
    rw [occupied]
    have := ih (a + BLOCK_OVERHEAD + b.size)
    split <;> simp only [List.length_cons] <;> omega

theorem occupied_ge (a : Nat) (h : List block_t) :
    ∀ e ∈ occupied a h, a + BLOCK_OVERHEAD ≤ e.1 := by
  induction h generalizing a with
  | nil => simp [occupied]
  | cons b bs ih =>
    intro e he
    rw [occupied] at he
    split at he
    · have := ih _ e he
      omega
    · rcases List.mem_cons.1 he with rfl | he
      · exact le_rfl
      · have := ih _ e he
        omega

theorem occupied_hfreeAt (a ptr : Nat) (h : List block_t) :
    occupied a (hfreeAt a ptr h) = (occupied a h).filter (fun e => e.1 ≠ ptr) := by
  induction h generalizing a with
  | nil => simp [hfreeAt, occupied]
  | cons b bs ih =>
    have hrest : (occupied (a + BLOCK_OVERHEAD + b.size) bs).filter
        (fun e => e.1 ≠ a + BLOCK_OVERHEAD) = occupied (a + BLOCK_OVERHEAD + b.size) bs := by
      apply List.filter_eq_self.2
      intro e he
      have := occupied_ge _ _ e he
      have h6 := BLOCK_OVERHEAD_eq
      simp only [ne_eq, decide_eq_true_eq]
      omega
    unfold hfreeAt
    split
    · rename_i hp
      subst hp
      conv_lhs => rw [occupied]
      conv_rhs => rw [occupied]
      rw [if_pos rfl]
      cases hb : b.free
      · rw [if_neg (by simp), List.filter_cons, if_neg (by simp), hrest]
      · rw [if_pos rfl, hrest]
    · rename_i hp
      conv_lhs => rw [occupied]
      conv_rhs => rw [occupied]
      split
      · exact ih _
      · rw [List.filter_cons]
        have : decide ((a + BLOCK_OVERHEAD, b.size).1 ≠ ptr) = true := by
          simp only [ne_eq, decide_eq_true_eq]
          exact fun h => hp h.symm
        rw [if_pos this, ih]

theorem occupied_hallocAt (a req : Nat) (h : List block_t) :
    (∀ p, (hallocAt a req h).1 = some p →
      ∃ cap, req ≤ cap ∧ cap ≤ req + BLOCK_OVERHEAD ∧
        List.Perm (occupied a (hallocAt a req h).2) ((p, cap) :: occupied a h)) ∧
    ((hallocAt a req h).1 = none → (hallocAt a req h).2 = h) := by
  induction h generalizing a with
  | nil => simp [hallocAt]
  | cons b bs ih =>
    unfold hallocAt
    split
    · rename_i hfit
      split
      · rename_i hrem
        refine ⟨?_, by simp⟩
        intro p hp
        simp only [Option.some.injEq] at hp
        subst hp
        refine ⟨req, le_rfl, Nat.le_add_right _ _, ?_⟩
        simp only [occupied, hfit.1, if_true, Bool.false_eq_true, if_false]
        have : a + BLOCK_OVERHEAD + req + BLOCK_OVERHEAD + (b.size - req - BLOCK_OVERHEAD)
            = a + BLOCK_OVERHEAD + b.size := by omega
        rw [this]
      · refine ⟨?_, by simp⟩
        intro p hp
        simp only [Option.some.injEq] at hp
        subst hp
        refine ⟨b.size, hfit.2, by omega, ?_⟩
        simp only [occupied, hfit.1, if_true, Bool.false_eq_true, if_false]
        exact List.Perm.refl _
    · obtain ⟨ih1, ih2⟩ := ih (a + BLOCK_OVERHEAD + b.size)
      refine ⟨?_, ?_⟩
      · intro p hp
        obtain ⟨cap, hcap, hcap2, hperm⟩ := ih1 p hp
        refine ⟨cap, hcap, hcap2, ?_⟩
        simp only [occupied]
        split
        · exact hperm
        · exact (List.Perm.cons _ hperm).trans (List.Perm.swap _ _ _)
      · intro hn
        simp only [ih2 hn]

theorem forall2_filter_of_agree {α β : Type} (R : α → β → Prop) (p : α → Bool) (q : β → Bool)
    (hpq : ∀ x y, R x y → p x = q y) {l1 : List α} {l2 : List β}
    (h : List.Forall₂ R l1 l2) : List.Forall₂ R (l1.filter p) (l2.filter q) := by
  induction h with
  | nil => exact List.Forall₂.nil
  | @cons x y xs ys hxy _ ih =>
    rw [List.filter_cons, List.filter_cons, ← hpq x y hxy]
    split
    · exact List.Forall₂.cons hxy ih
    · exact ih

theorem chainSpan_heapStep (c : Config) (s : HeapState) (call : HeapCall) :
    chainSpan (heapStep c s call).chain = chainSpan s.chain := by
  cases call with
  | halloc size =>
    have := chainSpan_hallocAt (HEAP_START_ADDR c) (alignUp HEAP_BLOCK_ALIGN size) s.chain
    simp only [heapStep]
    split <;> exact this
  | hfree ptr => exact chainSpan_hfreeAt _ _ _

theorem liveMatches_heapStep (c : Config) (s : HeapState) (call : HeapCall)
    (h : LiveMatches (HEAP_START_ADDR c) s.chain s.live) :
    LiveMatches (HEAP_START_ADDR c) (heapStep c s call).chain (heapStep c s call).live := by
  obtain ⟨l, hperm, hall⟩ := h
  cases call with
  | halloc size =>
    obtain ⟨h1, h2⟩ :=
      occupied_hallocAt (HEAP_START_ADDR c) (alignUp HEAP_BLOCK_ALIGN size) s.chain
    simp only [heapStep]
    split
    · rename_i p hp
      obtain ⟨cap, hcap, hcap2, hp2⟩ := h1 p hp
      exact ⟨(p, cap) :: l, (List.Perm.cons _ hperm).trans hp2.symm,
        List.Forall₂.cons ⟨rfl, hcap, hcap2⟩ hall⟩
    · rename_i hp
      have := h2 hp
      refine ⟨l, ?_, hall⟩
      show List.Perm l (occupied _ (halloc c s.chain size).2)
      unfold halloc
      rw [this]
      exact hperm
  | hfree ptr =>
    refine ⟨l.filter (fun e => e.1 ≠ ptr), ?_, ?_⟩
    · show List.Perm _ (occupied _ (hfreeAt _ ptr s.chain))
      rw [occupied_hfreeAt]
      exact hperm.filter _
    · apply forall2_filter_of_agree _ _ _ _ hall
      intro x y hxy
      rw [hxy.1]

theorem heapRun_invariant (c : Config) (calls : List HeapCall) :
    chainSpan (heapRun c calls).chain = chainSpan (hinit c) ∧
    LiveMatches (HEAP_START_ADDR c) (heapRun c calls).chain (heapRun c calls).live := by
  unfold heapRun
  induction calls using List.reverseRecOn with
  | nil => exact ⟨rfl, [], by simp [hinit, occupied], List.Forall₂.nil⟩
  | append_singleton cs call ih =>
    rw [List.foldl_append, List.foldl_cons, List.foldl_nil]
    exact ⟨(chainSpan_heapStep c _ call).trans ih.1, liveMatches_heapStep c _ call ih.2⟩

theorem chainSpan_hinit (c : Config) (hc : c ∈ configs) :
    chainSpan (hinit c) = c.HEAP_MAX_SIZE := by
  simp only [configs, List.mem_cons, List.mem_singleton, List.not_mem_nil, or_false] at hc
  rcases hc with rfl | rfl <;> decide

theorem le_alignUp_two (x : Nat) : x ≤ alignUp HEAP_BLOCK_ALIGN x := by
  show x ≤ (x + (2 - 1)) / 2 * 2
  omega

theorem matches_bounds (live l : List (Nat × Nat))
    (h : List.Forall₂ OwnsBlock live l) :
    (live.map (fun e => alignUp HEAP_BLOCK_ALIGN e.2)).sum ≤ (l.map Prod.snd).sum ∧
    (l.map Prod.snd).sum
      ≤ (live.map (fun e => alignUp HEAP_BLOCK_ALIGN e.2)).sum + BLOCK_OVERHEAD * live.length ∧
    (live.map Prod.snd).sum ≤ (live.map (fun e => alignUp HEAP_BLOCK_ALIGN e.2)).sum ∧
    live.length = l.length := by
  induction h with
  | nil => exact ⟨le_rfl, le_rfl, le_rfl, rfl⟩
  | @cons e o es os heo _ ih =>
    simp only [List.map_cons, List.sum_cons, List.length_cons, Nat.mul_succ]
    have h1 := le_alignUp_two e.2
    have h2 := heo.2.1
    have h3 := heo.2.2
    omega

/-- The capacity of the occupied blocks is the rounded requests of the live
allocations plus at most one block overhead each. -/
theorem usedCapacity_bounds (a : Nat) (s : HeapState)
    (h : LiveMatches a s.chain s.live) :
    liveRounded s ≤ usedCapacity s.chain ∧
    usedCapacity s.chain ≤ liveRounded s + BLOCK_OVERHEAD * s.live.length ∧
    liveSizes s ≤ liveRounded s ∧
    s.live.length = (occupied a s.chain).length := by
  obtain ⟨l, hperm, hall⟩ := h
  rw [usedCapacity_eq_occupied a, ← (hperm.map Prod.snd).sum_eq, ← hperm.length_eq]
  exact matches_bounds _ _ hall

theorem noAdjacentFree_tail (b : block_t) (bs : List block_t)
    (h : noAdjacentFree (b :: bs)) : noAdjacentFree bs := by
  cases bs with
  | nil => trivial
  | cons b2 bs => exact h.2

/-- A chain without two neighbouring free blocks has at most one free block
more than occupied ones. -/
theorem length_le_of_noAdjacentFree (a : Nat) (l : List block_t) (h : noAdjacentFree l) :
    l.length ≤ 2 * (occupied a l).length + 1 ∧
    (∀ b bs, l = b :: bs → b.free = false → l.length ≤ 2 * (occupied a l).length) := by
  induction l generalizing a with
  | nil => exact ⟨Nat.zero_le _, fun b bs hl => by simp at hl⟩
  | cons b bs ih =>
    obtain ⟨ih1, ih2⟩ := ih (a + BLOCK_OVERHEAD + b.size) (noAdjacentFree_tail b bs h)
    cases hb : b.free with
    | false =>
      have hocc : occupied a (b :: bs)
          = (a + BLOCK_OVERHEAD, b.size) :: occupied (a + BLOCK_OVERHEAD + b.size) bs := by
        rw [occupied, if_neg (by simp [hb])]
      rw [hocc]
      simp only [List.length_cons]
      exact ⟨by omega, fun _ _ _ _ => by omega⟩
    | true =>
      have hocc : occupied a (b :: bs) = occupied (a + BLOCK_OVERHEAD + b.size) bs := by
        rw [occupied, if_pos hb]
      rw [hocc]
      refine ⟨?_, ?_⟩
      · cases bs with
        | nil => simp
        | cons b2 bs2 =>
          have hb2 : b2.free = false := by
            have := h.1
            cases hb2 : b2.free with
            | false => rfl
            | true => exact absurd ⟨hb, hb2⟩ this
          have := ih2 b2 bs2 rfl hb2
          simp only [List.length_cons] at this ⊢
          omega
      · intro b' bs' hl hfree
        simp only [List.cons.injEq] at hl
        rw [← hl.1, hb] at hfree
        exact absurd hfree (by simp)

/-- The requested sizes of the live allocations are covered by the occupied
blocks. -/
theorem liveSizes_le_usedCapacity (a : Nat) (s : HeapState)
    (h : LiveMatches a s.chain s.live) : liveSizes s ≤ usedCapacity s.chain := by
  obtain ⟨h1, _, h3, _⟩ := usedCapacity_bounds a s h
  omega

/-- C6 (as the model satisfies it): for every sequence of halloc and hfree calls
on a freshly hinit-ed arena followed by one hmerge pass, the total free capacity
of the chain equals HEAP_MAX_SIZE minus the capacities of the occupied blocks
minus one block header (`sizeof(block_t)`) for every block of the chain.  The
occupied blocks are exactly the blocks of the live allocations; the capacity of
each is the requested size rounded up to even plus at most one block header, so
the free capacity lies between HEAP_MAX_SIZE minus the rounded requests minus a
header per block and per live allocation, and HEAP_MAX_SIZE minus the rounded
requests minus a header per block.  No two neighbouring blocks are both free, so
the chain has at least one block per live allocation and at most twice as many
plus one. -/
theorem C6_free_capacity_after_merge (c : Config) (hc : c ∈ configs)
    (calls : List HeapCall) :
    freeCapacity (hmerge (heapRun c calls).chain) =
      c.HEAP_MAX_SIZE - usedCapacity (hmerge (heapRun c calls).chain)
        - BLOCK_OVERHEAD * (hmerge (heapRun c calls).chain).length ∧
    usedCapacity (hmerge (heapRun c calls).chain)
      + BLOCK_OVERHEAD * (hmerge (heapRun c calls).chain).length ≤ c.HEAP_MAX_SIZE ∧
    usedCapacity (hmerge (heapRun c calls).chain) =
      ((occupied (HEAP_START_ADDR c) (hmerge (heapRun c calls).chain)).map Prod.snd).sum ∧
    LiveMatches (HEAP_START_ADDR c) (hmerge (heapRun c calls).chain) (heapRun c calls).live ∧
    liveSizes (heapRun c calls) ≤ usedCapacity (hmerge (heapRun c calls).chain) ∧
    noAdjacentFree (hmerge (heapRun c calls).chain) ∧
    0 < (hmerge (heapRun c calls).chain).length ∧
    BLOCK_OVERHEAD = sizeof_block_t ∧ 0 < BLOCK_OVERHEAD ∧
    liveRounded (heapRun c calls) ≤ usedCapacity (hmerge (heapRun c calls).chain) ∧
    usedCapacity (hmerge (heapRun c calls).chain)
      ≤ liveRounded (heapRun c calls) + BLOCK_OVERHEAD * (heapRun c calls).live.length ∧
    freeCapacity (hmerge (heapRun c calls).chain) + liveRounded (heapRun c calls)
      + BLOCK_OVERHEAD * (hmerge (heapRun c calls).chain).length ≤ c.HEAP_MAX_SIZE ∧
    c.HEAP_MAX_SIZE ≤ freeCapacity (hmerge (heapRun c calls).chain)
      + liveRounded (heapRun c calls) + BLOCK_OVERHEAD * (heapRun c calls).live.length
      + BLOCK_OVERHEAD * (hmerge (heapRun c calls).chain).length ∧
    (heapRun c calls).live.length ≤ (hmerge (heapRun c calls).chain).length ∧
    (hmerge (heapRun c calls).chain).length ≤ 2 * (heapRun c calls).live.length + 1 := by
  obtain ⟨hspan, hlive⟩ := heapRun_invariant c calls
  have hacc := chain_accounting (hmerge (heapRun c calls).chain)
  rw [chainSpan_hmerge, hspan, chainSpan_hinit c hc] at hacc
  have hlive' : LiveMatches (HEAP_START_ADDR c) (hmerge (heapRun c calls).chain)
      (heapRun c calls).live := by
    unfold LiveMatches
    rw [occupied_hmerge]
    exact hlive
  have hused : usedCapacity (hmerge (heapRun c calls).chain)
      = usedCapacity (heapRun c calls).chain := by
    rw [usedCapacity_eq_occupied (HEAP_START_ADDR c), occupied_hmerge,
      ← usedCapacity_eq_occupied]
  have hlen : 0 < (hmerge (heapRun c calls).chain).length := by
    rcases Nat.eq_zero_or_pos (hmerge (heapRun c calls).chain).length with h0 | h0
    · have hnil := List.length_eq_zero.1 h0
      have hsp := chainSpan_hmerge (heapRun c calls).chain
      rw [hnil, hspan, chainSpan_hinit c hc] at hsp
      have hpos : 0 < c.HEAP_MAX_SIZE := by
        simp only [configs, List.mem_cons, List.mem_singleton, List.not_mem_nil, or_false] at hc
        rcases hc with rfl | rfl <;> decide
      simp only [chainSpan, List.map_nil, List.sum_nil] at hsp
      omega
    · exact h0
  obtain ⟨hb1, hb2, hb3, hb4⟩ := usedCapacity_bounds (HEAP_START_ADDR c) _ hlive
  rw [← hused] at hb1 hb2
  rw [← occupied_hmerge] at hb4
  have hcount := (length_le_of_noAdjacentFree (HEAP_START_ADDR c) _
    (noAdjacentFree_hmerge (heapRun c calls).chain)).1
  have hocc_le : (occupied (HEAP_START_ADDR c) (hmerge (heapRun c calls).chain)).length
      ≤ (hmerge (heapRun c calls).chain).length := occupied_length_le _ _
  refine ⟨by omega, by omega, usedCapacity_eq_occupied _ _, hlive', by omega,
    noAdjacentFree_hmerge _, hlen, rfl, by decide, hb1, hb2, by omega, by omega, by omega,
    by omega⟩

/-- Witness for C6: two allocations of 3 and 10 bytes, the first released again. -/
theorem C6_free_capacity_after_merge_witness :
    freeCapacity (hmerge (heapRun cwii [.halloc 3, .halloc 10, .hfree 0x9C0A]).chain) =
      cwii.HEAP_MAX_SIZE
        - usedCapacity (hmerge (heapRun cwii [.halloc 3, .halloc 10, .hfree 0x9C0A]).chain)
        - BLOCK_OVERHEAD
          * (hmerge (heapRun cwii [.halloc 3, .halloc 10, .hfree 0x9C0A]).chain).length :=
  (C6_free_capacity_after_merge cwii (by decide) [.halloc 3, .halloc 10, .hfree 0x9C0A]).1

/-- C6 as stated fails: on the freshly initialised default arena with no call at
all there is no live allocation, yet after the merge pass the chain reports 5114
free bytes, not the arena capacity 5120; with one live allocation of 10 bytes
it reports 5098, not 5110.  Counting the block headers is not enough either:
an allocation of 3 bytes occupies a block of capacity 4 (free 5104, not
5120 - 3 - 2 * 6), and an allocation of 5110 bytes consumes the whole block of
capacity 5114 (free 0, not 5120 - 5110 - 6). -/
theorem C6_counterexample :
    (heapRun cwii []).live = [] ∧ liveSizes (heapRun cwii []) = 0 ∧
    usedCapacity (hmerge (heapRun cwii []).chain) = 0 ∧
    freeCapacity (hmerge (heapRun cwii []).chain) = 5114 ∧
    cwii.HEAP_MAX_SIZE = 5120 ∧
    freeCapacity (hmerge (heapRun cwii []).chain)
      ≠ cwii.HEAP_MAX_SIZE - liveSizes (heapRun cwii []) ∧
    freeCapacity (hmerge (heapRun cwii []).chain)
      ≠ cwii.HEAP_MAX_SIZE - usedCapacity (hmerge (heapRun cwii []).chain) ∧
    (heapRun cwii [.halloc 10]).live = [(0x9C0A, 10)] ∧
    freeCapacity (hmerge (heapRun cwii [.halloc 10]).chain) = 5098 ∧
    freeCapacity (hmerge (heapRun cwii [.halloc 10]).chain)
      ≠ cwii.HEAP_MAX_SIZE - liveSizes (heapRun cwii [.halloc 10]) ∧
    hmerge (heapRun cwii [.halloc 3]).chain = [⟨4, false⟩, ⟨5104, true⟩] ∧
    freeCapacity (hmerge (heapRun cwii [.halloc 3]).chain)
      ≠ cwii.HEAP_MAX_SIZE - liveSizes (heapRun cwii [.halloc 3])
          - BLOCK_OVERHEAD * (hmerge (heapRun cwii [.halloc 3]).chain).length ∧
    hmerge (heapRun cwii [.halloc 5110]).chain = [⟨5114, false⟩] ∧
    freeCapacity (hmerge (heapRun cwii [.halloc 5110]).chain)
      ≠ cwii.HEAP_MAX_SIZE - liveSizes (heapRun cwii [.halloc 5110])
          - BLOCK_OVERHEAD * (hmerge (heapRun cwii [.halloc 5110]).chain).length := by
  decide


/-! ## Moving a node -/

theorem parentIter_succ (nodes : Nat → fs_node_t) (k cur : Nat) :
    parentIter nodes (k + 1) cur = parentIter nodes k (nodes cur).parent := by
  simp [parentIter, Function.iterate_succ_apply]

theorem parentIter_add (nodes : Nat → fs_node_t) (i j cur : Nat) :
    parentIter nodes (i + j) cur = parentIter nodes i (parentIter nodes j cur) := by
  simp [parentIter, Function.iterate_add_apply]

/-- The ancestor walk finds `target` when it lies `k` parent links above `cur`,
no node on the way is the sentinel and the fuel exceeds `k`. -/
theorem isSelfOrAncestor_found (nodes : Nat → fs_node_t) (target : Nat) :
    ∀ (fuel k cur : Nat), k < fuel → parentIter nodes k cur = target →
      (∀ j, j ≤ k → parentIter nodes j cur ≠ FS_INVALID_IDX) →
      isSelfOrAncestor nodes target fuel cur = some true := by
  intro fuel
  induction fuel with
  | zero => intro k cur hk; omega
  | succ fuel ih =>
    intro k cur hk hreach hvalid
    unfold isSelfOrAncestor
    have h0 : cur ≠ FS_INVALID_IDX := by simpa [parentIter] using hvalid 0 (Nat.zero_le _)
    rw [if_neg h0]
    by_cases ht : cur = target
    · rw [if_pos ht]
    · rw [if_neg ht]
      cases k with
      | zero => exact absurd (by simpa [parentIter] using hreach) ht
      | succ k =>
        apply ih k _ (by omega)
        · rw [← parentIter_succ]; exact hreach
        · intro j hj
          rw [← parentIter_succ]
          exact hvalid (j + 1) (by omega)

/-- A shortest parent path between two nodes visits no node twice, so it is
shorter than the table. -/
theorem shortest_parent_path (nodes : Nat → fs_node_t) (M n p k : Nat)
    (hreach : parentIter nodes k p = n)
    (hvalid : ∀ j, j ≤ k → parentIter nodes j p < M) :
    ∃ k', k' < M ∧ k' ≤ k ∧ parentIter nodes k' p = n := by
  classical
  have hex : ∃ k', parentIter nodes k' p = n := ⟨k, hreach⟩
  refine ⟨Nat.find hex, ?_, Nat.find_min' hex hreach, Nat.find_spec hex⟩
  have hle : Nat.find hex ≤ k := Nat.find_min' hex hreach
  have hinj : Function.Injective
      (fun i : Fin (Nat.find hex + 1) =>
        (⟨parentIter nodes i.1 p, hvalid i.1 (by omega)⟩ : Fin M)) := by
    intro i j hij
    have hij' : parentIter nodes i.1 p = parentIter nodes j.1 p := by
      simpa using congrArg Fin.val hij
    by_contra hne
    have hne' : i.1 ≠ j.1 := fun h => hne (Fin.ext h)
    have key : ∀ a b : Nat, a < b → b ≤ Nat.find hex →
        parentIter nodes a p = parentIter nodes b p → False := by
      intro a b hab hb heq
      have h1 : parentIter nodes (Nat.find hex - b + a) p = n := by
        rw [parentIter_add, heq, ← parentIter_add]
        have : Nat.find hex - b + b = Nat.find hex := by omega
        rw [this]
        exact Nat.find_spec hex
      exact Nat.find_min hex (by omega) h1
    rcases Nat.lt_or_gt_of_ne hne' with h | h
    · exact key i.1 j.1 h (by omega) hij'
    · exact key j.1 i.1 h (by omega) hij'.symm
  have := Fintype.card_le_of_injective _ hinj
  simp only [Fintype.card_fin] at this
  omega

/-- C7: for every node `n` and every directory `p` that is `n` itself or a
descendant of `n` (following parent links from `p` leads to `n`),
`fs_move_node(n, p)` ends, fails with CyclicMove and returns the region as it
was, so every node's parent, first_child and next_sibling link is unchanged. -/
theorem C7_move_into_descendant (c : Config) (hc : c ∈ configs) (fs : FS) (n p : Nat)
    (hdir : (fs.nodes p).perms.is_directory = 1)
    (hdesc : IsSelfOrDescendant c fs n p) :
    fs_move_node c fs n p = some (some FsError.CyclicMove, fs) := by
  obtain ⟨k, hreach, hvalid⟩ := hdesc
  have hM : c.FS_MAX_NODES ≤ FS_INVALID_IDX := by
    simp only [configs, List.mem_cons, List.mem_singleton, List.not_mem_nil, or_false] at hc
    rcases hc with rfl | rfl <;> decide
  obtain ⟨k', hk', hle, hreach'⟩ :=
    shortest_parent_path fs.nodes c.FS_MAX_NODES n p k hreach hvalid
  have hwalk : isSelfOrAncestor fs.nodes n (c.FS_MAX_NODES + 1) p = some true := by
    apply isSelfOrAncestor_found fs.nodes n _ k' p (by omega) hreach'
    intro j hj
    have := hvalid j (by omega)
    omega
  unfold fs_move_node
  rw [if_neg (by omega), hwalk]

/-- Witness for C7: in the tree root / 1 / 2, moving directory 1 into its child 2. -/
theorem C7_move_into_descendant_witness :
    fs_move_node cwii (exampleTreeFs cwii) 1 2
      = some (some FsError.CyclicMove, exampleTreeFs cwii) :=
  C7_move_into_descendant cwii (by decide) (exampleTreeFs cwii) 1 2 (by decide)
    ⟨1, by decide, fun j hj => by interval_cases j <;> decide⟩


/-! ## Extent pool: memory lemmas -/

theorem ext_size_eq (m : Nat → Nat) (o : Nat) : ext_size m o = rd16 m o := rfl

theorem ext_next_eq (m : Nat → Nat) (o : Nat) : ext_next m o = rd16 m (o + 2) := rfl

theorem ext_data_eq (o : Nat) : ext_data o = o + 4 := rfl

theorem wr8_same (m : Nat → Nat) (a v : Nat) : wr8 m a v a = v % 256 := by
  simp [wr8]

theorem wr8_other (m : Nat → Nat) (a v x : Nat) (h : x ≠ a) : wr8 m a v x = m x := by
  simp [wr8, h]

theorem wr16_other (m : Nat → Nat) (a v x : Nat) (h1 : x ≠ a) (h2 : x ≠ a + 1) :
    wr16 m a v x = m x := by
  unfold wr16
  rw [wr8_other _ _ _ _ h2, wr8_other _ _ _ _ h1]

theorem rd16_congr (m m' : Nat → Nat) (a : Nat) (h0 : m' a = m a) (h1 : m' (a + 1) = m (a + 1)) :
    rd16 m' a = rd16 m a := by
  unfold rd16
  rw [h0, h1]

theorem rd16_wr16_same (m : Nat → Nat) (a v : Nat) (hv : v < 65536) :
    rd16 (wr16 m a v) a = v := by
  unfold rd16 wr16
  rw [wr8_other _ _ _ _ (by omega : a ≠ a + 1), wr8_same, wr8_same]
  omega

theorem rd16_wr16_other (m : Nat → Nat) (a v x : Nat) (h : x + 1 < a ∨ a + 1 < x) :
    rd16 (wr16 m a v) x = rd16 m x := by
  apply rd16_congr
  · exact wr16_other _ _ _ _ (by omega) (by omega)
  · exact wr16_other _ _ _ _ (by omega) (by omega)

theorem writeBytes_other (m : Nat → Nat) (a : Nat) (l : List Nat) (x : Nat)
    (h : x < a ∨ a + l.length ≤ x) : writeBytes m a l x = m x := by
  induction l generalizing m a with
  | nil => rfl
  | cons b bs ih =>
    unfold writeBytes
    rw [ih _ _ (by simp only [List.length_cons] at h; omega),
      wr8_other _ _ _ _ (by simp only [List.length_cons] at h; omega)]

theorem readBytes_length (m : Nat → Nat) (a k : Nat) : (readBytes m a k).length = k := by
  induction k generalizing a with
  | zero => rfl
  | succ k ih => simp [readBytes, ih]

theorem readBytes_congr (m m' : Nat → Nat) (a k : Nat)
    (h : ∀ x, a ≤ x → x < a + k → m' x = m x) : readBytes m' a k = readBytes m a k := by
  induction k generalizing a with
  | zero => rfl
  | succ k ih =>
    unfold readBytes
    rw [h a le_rfl (by omega), ih (a + 1) (fun x h1 h2 => h x (by omega) (by omega))]

theorem readBytes_take (m : Nat → Nat) (a k j : Nat) :
    (readBytes m a k).take j = readBytes m a (min k j) := by
  induction k generalizing a j with
  | zero => simp [readBytes]
  | succ k ih =>
    cases j with
    | zero => simp [readBytes]
    | succ j =>
      have : min (k + 1) (j + 1) = min k j + 1 := by omega
      rw [this]
      simp only [readBytes, List.take_succ_cons, ih]

theorem readBytes_writeBytes (m : Nat → Nat) (a : Nat) (l : List Nat)
    (hl : ∀ x ∈ l, x < 256) : readBytes (writeBytes m a l) a l.length = l := by
  induction l generalizing m a with
  | nil => rfl
  | cons b bs ih =>
    simp only [List.length_cons, readBytes, writeBytes]
    rw [ih _ _ (fun x hx => hl x (List.mem_cons_of_mem _ hx)),
      writeBytes_other _ _ _ _ (by omega), wr8_same,
      Nat.mod_eq_of_lt (hl b (List.mem_cons_self _ _))]

/-! ## Extent pool: chains -/

theorem IsSeg_congr (m m' : Nat → Nat) (exts : List (Nat × Nat)) (h t : Nat)
    (hagree : ∀ e ∈ exts, ∀ x, InHeader e x → m' x = m x) (hs : IsSeg m h exts t) :
    IsSeg m' h exts t := by
  induction exts generalizing h with
  | nil => exact hs
  | cons e rest ih =>
    obtain ⟨h1, h2, h3, h4⟩ := hs
    have hsz : ext_size m' e.1 = ext_size m e.1 := by
      rw [ext_size_eq, ext_size_eq]
      apply rd16_congr <;> apply hagree e (List.mem_cons_self _ _) <;>
        simp only [InHeader, ext_data_eq] <;> omega
    have hnx : ext_next m' e.1 = ext_next m e.1 := by
      rw [ext_next_eq, ext_next_eq]
      apply rd16_congr <;> apply hagree e (List.mem_cons_self _ _) <;>
        simp only [InHeader, ext_data_eq] <;> omega
    refine ⟨h1, h2, by rw [hsz]; exact h3, ?_⟩
    rw [hnx]
    exact ih _ (fun e' he' => hagree e' (List.mem_cons_of_mem _ he')) h4

theorem IsSeg_append (m : Nat → Nat) (l1 l2 : List (Nat × Nat)) (h t : Nat) :
    IsSeg m h (l1 ++ l2) t ↔ ∃ mid, IsSeg m h l1 mid ∧ IsSeg m mid l2 t := by
  induction l1 generalizing h with
  | nil =>
    constructor
    · intro hs; exact ⟨h, rfl, hs⟩
    · rintro ⟨mid, h1, h2⟩
      have : h = mid := h1
      subst this
      exact h2
  | cons e rest ih =>
    constructor
    · rintro ⟨h1, h2, h3, h4⟩
      obtain ⟨mid, h5, h6⟩ := (ih _).1 h4
      exact ⟨mid, ⟨h1, h2, h3, h5⟩, h6⟩
    · rintro ⟨mid, ⟨h1, h2, h3, h5⟩, h6⟩
      exact ⟨h1, h2, h3, (ih _).2 ⟨mid, h5, h6⟩⟩

theorem ExtDisjoint_symm (e1 e2 : Nat × Nat) (h : ExtDisjoint e1 e2) : ExtDisjoint e2 e1 :=
  Or.symm h

theorem Separated_cons (P : Nat) (e : Nat × Nat) (l : List (Nat × Nat)) :
    Separated P (e :: l) ↔
      (∀ e' ∈ l, ExtDisjoint e e') ∧ ext_data e.1 + e.2 ≤ P ∧ Separated P l := by
  unfold Separated
  rw [List.pairwise_cons]
  constructor
  · rintro ⟨⟨h1, h2⟩, h3⟩
    exact ⟨h1, h3 e (List.mem_cons_self _ _), h2, fun e' he' => h3 e' (List.mem_cons_of_mem _ he')⟩
  · rintro ⟨h1, h2, h3, h4⟩
    refine ⟨⟨h1, h3⟩, ?_⟩
    intro e' he'
    rcases List.mem_cons.1 he' with rfl | he'
    · exact h2
    · exact h4 e' he'

theorem Separated_perm (P : Nat) (l1 l2 : List (Nat × Nat)) (hp : List.Perm l1 l2)
    (h : Separated P l1) : Separated P l2 := by
  refine ⟨(hp.pairwise_iff (fun {a b} hab => ExtDisjoint_symm a b hab)).1 h.1, ?_⟩
  intro e he
  exact h.2 e (hp.mem_iff.2 he)

theorem Separated_sublist (P : Nat) (l1 l2 : List (Nat × Nat)) (hs : List.Sublist l1 l2)
    (h : Separated P l2) : Separated P l1 :=
  ⟨h.1.sublist hs, fun e he => h.2 e (hs.subset he)⟩

theorem Separated_nil (P : Nat) : Separated P [] :=
  ⟨List.Pairwise.nil, fun _ h => absurd h (List.not_mem_nil _)⟩

/-- A separated list of extents is shorter than the pool. -/
theorem Separated_length (P : Nat) (l : List (Nat × Nat)) (h : Separated P l) :
    l.length ≤ P - 3 := by
  have hnd : (l.map Prod.fst).Nodup := by
    unfold List.Nodup
    rw [List.pairwise_map]
    refine h.1.imp ?_
    intro a b hab
    rcases hab with hab | hab <;> simp only [ext_data_eq] at hab <;> omega
  have hsub : (l.map Prod.fst).toFinset ⊆ Finset.range (P - 3) := by
    intro x hx
    rw [List.mem_toFinset, List.mem_map] at hx
    obtain ⟨e, he, rfl⟩ := hx
    have := h.2 e he
    rw [ext_data_eq] at this
    rw [Finset.mem_range]
    omega
  have := Finset.card_le_card hsub
  rw [List.toFinset_card_of_nodup hnd, Finset.card_range, List.length_map] at this
  exact this

/-- The head of a chain of separated extents fits in a word. -/
theorem IsChain_head_lt (m : Nat → Nat) (P h : Nat) (l : List (Nat × Nat))
    (hP : P ≤ 0xFFFF) (hc : IsChain m h l) (hs : Separated P l) : h < 65536 := by
  cases l with
  | nil =>
    have : h = FS_NULL_OFFSET := hc
    rw [this]
    decide
  | cons e rest =>
    have h1 : h = e.1 := hc.1
    have := hs.2 e (List.mem_cons_self _ _)
    rw [ext_data_eq] at this
    omega

theorem EXT_SIZE_OFS_eq : EXT_SIZE_OFS = 0 := by decide

theorem EXT_NEXT_OFS_eq : EXT_NEXT_OFS = 2 := by decide

theorem sizeof_fs_extent_t_eq : sizeof_fs_extent_t = 4 := by decide

/-- Releasing a chain pushes its extents, in reverse order, on the free list; it
changes header bytes of the released extents only. -/
theorem fs_release_chain_spec (P : Nat) (hP : P ≤ 0xFFFF) :
    ∀ (fileExts : List (Nat × Nat)) (fuel : Nat) (fs : FS) (cur : Nat)
      (freeExts : List (Nat × Nat)),
      IsChain fs.pool cur fileExts → IsChain fs.pool fs.free_list freeExts →
      Separated P (fileExts ++ freeExts) → fileExts.length < fuel →
      ∃ fs', fs_release_chain fuel fs cur = some fs' ∧ fs'.nodes = fs.nodes ∧
        fs'.free_nodes = fs.free_nodes ∧
        IsChain fs'.pool fs'.free_list (fileExts.reverse ++ freeExts) ∧
        ∀ x, (∀ e ∈ fileExts, ¬ InHeader e x) → fs'.pool x = fs.pool x := by
  intro fileExts
  induction fileExts with
  | nil =>
    intro fuel fs cur freeExts hc hf _ hfuel
    cases fuel with
    | zero => simp at hfuel
    | succ f =>
      have : cur = FS_NULL_OFFSET := hc
      exact ⟨fs, by unfold fs_release_chain; rw [if_pos this], rfl, rfl, hf, fun _ _ => rfl⟩
  | cons e rest ih =>
    intro fuel fs cur freeExts hc hf hsep hfuel
    cases fuel with
    | zero => simp at hfuel
    | succ f =>
      obtain ⟨h1, h2, h3, h4⟩ := hc
      subst h1
      have hsep0 := hsep
      rw [List.cons_append, Separated_cons] at hsep
      obtain ⟨hdis, hbound, hsep'⟩ := hsep
      have hfl : fs.free_list < 65536 :=
        IsChain_head_lt fs.pool P _ freeExts hP hf
          (Separated_sublist P _ _ (List.sublist_append_right _ _) hsep')
      have hframe : ∀ e' ∈ rest ++ freeExts, ∀ x, InHeader e' x →
          wr16 fs.pool (e.1 + EXT_NEXT_OFS) fs.free_list x = fs.pool x := by
        intro e' he' x hx
        have hd := hdis e' he'
        simp only [ExtDisjoint, InHeader, ext_data_eq] at hd hx
        rw [EXT_NEXT_OFS_eq]
        apply wr16_other <;> omega
      obtain ⟨fs', hr, hn, hfn, hchain, hfr⟩ := ih f
        { fs with pool := wr16 fs.pool (e.1 + EXT_NEXT_OFS) fs.free_list, free_list := e.1 }
        (ext_next fs.pool e.1) (e :: freeExts)
        (IsSeg_congr _ _ _ _ _
          (fun e' he' => hframe e' (List.mem_append_left _ he')) h4)
        ⟨rfl, h2, by
            show ext_size (wr16 fs.pool (e.1 + EXT_NEXT_OFS) fs.free_list) e.1 = e.2
            rw [ext_size_eq, EXT_NEXT_OFS_eq, rd16_wr16_other _ _ _ _ (by omega), ← ext_size_eq]
            exact h3, by
            show IsSeg (wr16 fs.pool (e.1 + EXT_NEXT_OFS) fs.free_list)
              (ext_next (wr16 fs.pool (e.1 + EXT_NEXT_OFS) fs.free_list) e.1) freeExts _
            rw [ext_next_eq, EXT_NEXT_OFS_eq, rd16_wr16_same _ _ _ hfl, ← EXT_NEXT_OFS_eq]
            exact IsSeg_congr _ _ _ _ _
              (fun e' he' => hframe e' (List.mem_append_right _ he')) hf⟩
        (Separated_perm P _ _ List.perm_middle.symm hsep0)
        (by simp only [List.length_cons] at hfuel; omega)
      refine ⟨fs', ?_, hn, hfn, ?_, ?_⟩
      · unfold fs_release_chain
        rw [if_neg h2]
        exact hr
      · have : (e :: rest).reverse ++ freeExts = rest.reverse ++ e :: freeExts := by simp
        rw [this]
        exact hchain
      · intro x hx
        rw [hfr x (fun e' he' => hx e' (List.mem_cons_of_mem _ he'))]
        have := hx e (List.mem_cons_self _ _)
        simp only [InHeader, ext_data_eq] at this
        show wr16 fs.pool (e.1 + EXT_NEXT_OFS) fs.free_list x = fs.pool x
        rw [EXT_NEXT_OFS_eq]
        apply wr16_other <;> omega

theorem extCapacity_nil : extCapacity [] = 0 := rfl

theorem extCapacity_cons (e : Nat × Nat) (l : List (Nat × Nat)) :
    extCapacity (e :: l) = e.2 + extCapacity l := by
  simp [extCapacity]

theorem extCapacity_append (l1 l2 : List (Nat × Nat)) :
    extCapacity (l1 ++ l2) = extCapacity l1 + extCapacity l2 := by
  simp [extCapacity]

/-- The allocation walk stops at the first extent up to which the free list
covers the request. -/
theorem fs_find_last_spec (pool : Nat → Nat) :
    ∀ (L : List (Nat × Nat)) (fuel head need : Nat),
      IsChain pool head L → 0 < need → need ≤ extCapacity L → L.length < fuel →
      ∃ pre e post need', L = pre ++ e :: post ∧
        fs_find_last pool fuel head need = some (some (e.1, need')) ∧
        extCapacity pre + need' = need ∧ 0 < need' ∧ need' ≤ e.2 := by
  intro L
  induction L with
  | nil =>
    intro fuel head need _ hpos hcap _
    simp [extCapacity] at hcap
    omega
  | cons e rest ih =>
    intro fuel head need hc hpos hcap hfuel
    cases fuel with
    | zero => simp at hfuel
    | succ f =>
      obtain ⟨h1, h2, h3, h4⟩ := hc
      subst h1
      unfold fs_find_last
      rw [if_neg h2, h3]
      by_cases hfit : need ≤ e.2
      · rw [if_pos hfit]
        exact ⟨[], e, rest, need, rfl, rfl, by simp [extCapacity], hpos, hfit⟩
      · rw [if_neg hfit]
        rw [extCapacity_cons] at hcap
        obtain ⟨pre, e', post, need', hL, hfind, hsum, hp, hle⟩ :=
          ih f (ext_next pool e.1) (need - e.2) h4 (by omega) (by omega)
            (by simp only [List.length_cons] at hfuel; omega)
        refine ⟨e :: pre, e', post, need', by rw [hL]; rfl, hfind, ?_, hp, hle⟩
        rw [extCapacity_cons]
        omega

/-- Replacing an extent by two non-overlapping parts of it keeps a list of
extents separated. -/
theorem Separated_split (P : Nat) (pre post : List (Nat × Nat)) (e e1 e2 : Nat × Nat)
    (h : Separated P (pre ++ e :: post))
    (h1 : e.1 ≤ e1.1 ∧ ext_data e1.1 + e1.2 ≤ ext_data e.1 + e.2)
    (h2 : e.1 ≤ e2.1 ∧ ext_data e2.1 + e2.2 ≤ ext_data e.1 + e.2)
    (h12 : ExtDisjoint e1 e2) : Separated P (pre ++ e1 :: e2 :: post) := by
  have hp : Separated P (e :: (pre ++ post)) := Separated_perm P _ _ List.perm_middle h
  rw [Separated_cons] at hp
  obtain ⟨hdis, hb, hrest⟩ := hp
  have key : Separated P (e1 :: e2 :: (pre ++ post)) := by
    rw [Separated_cons, Separated_cons]
    refine ⟨?_, by omega, ?_, by omega, hrest⟩
    · intro e' he'
      rcases List.mem_cons.1 he' with rfl | he'
      · exact h12
      · have := hdis e' he'
        simp only [ExtDisjoint, ext_data_eq] at this h1 ⊢
        omega
    · intro e' he'
      have := hdis e' he'
      simp only [ExtDisjoint, ext_data_eq] at this h2 ⊢
      omega
  refine Separated_perm P _ _ ?_ key
  have p1 : List.Perm (e2 :: (pre ++ post)) (pre ++ e2 :: post) := List.perm_middle.symm
  have p2 : List.Perm (e1 :: (pre ++ e2 :: post)) (pre ++ e1 :: e2 :: post) :=
    List.perm_middle.symm
  exact (List.Perm.cons e1 p1).trans p2

/-- Shrinking an extent keeps a list of extents separated. -/
theorem Separated_shrink (P : Nat) (pre post : List (Nat × Nat)) (e e1 : Nat × Nat)
    (h : Separated P (pre ++ e :: post))
    (h1 : e.1 ≤ e1.1 ∧ ext_data e1.1 + e1.2 ≤ ext_data e.1 + e.2) :
    Separated P (pre ++ e1 :: post) := by
  have hp : Separated P (e :: (pre ++ post)) := Separated_perm P _ _ List.perm_middle h
  rw [Separated_cons] at hp
  obtain ⟨hdis, hb, hrest⟩ := hp
  refine Separated_perm P _ _ List.perm_middle.symm ?_
  rw [Separated_cons]
  refine ⟨?_, by omega, hrest⟩
  intro e' he'
  have := hdis e' he'
  simp only [ExtDisjoint, ext_data_eq] at this h1 ⊢
  omega

theorem pool_size_bounds (c : Config) (hc : c ∈ configs) :
    3 < FS_DATA_POOL_SIZE c ∧ FS_DATA_POOL_SIZE c ≤ 0xFFFF := by
  simp only [configs, List.mem_cons, List.mem_singleton, List.not_mem_nil, or_false] at hc
  rcases hc with rfl | rfl <;> decide

/-- Allocating `n` bytes from a well-formed free list that covers them succeeds:
the result is a well-formed chain of capacity at least `n`, and what is left is
again a well-formed free list that does not overlap the chain.  The extents of
both lie inside extents of the old free list, and no byte outside those is
changed. -/
theorem fs_alloc_chain_spec (c : Config) (hc : c ∈ configs) (fs : FS)
    (L : List (Nat × Nat)) (n : Nat)
    (hchain : IsChain fs.pool fs.free_list L)
    (hsep : Separated (FS_DATA_POOL_SIZE c) L) (hn : n ≤ extCapacity L) :
    ∃ head fs2 C F, fs_alloc_chain c fs n = some (some head, fs2) ∧
      fs2.nodes = fs.nodes ∧ IsChain fs2.pool head C ∧ IsChain fs2.pool fs2.free_list F ∧
      Separated (FS_DATA_POOL_SIZE c) (C ++ F) ∧ n ≤ extCapacity C ∧
      fs2.free_nodes = fs.free_nodes ∧
      (∀ e' ∈ C ++ F, ∃ e ∈ L, Within e' e) ∧
      (∀ x, (∀ e ∈ L, ¬ InRegion e x) → fs2.pool x = fs.pool x) ∧
      (n = 0 → C = []) := by
  obtain ⟨hP3, hP⟩ := pool_size_bounds c hc
  by_cases hn0 : n = 0
  · refine ⟨FS_NULL_OFFSET, fs, [], L, ?_, rfl, rfl, hchain, hsep, by simp [hn0], rfl,
      fun e' he' => ⟨e', he', le_rfl, le_rfl⟩, fun _ _ => rfl, fun _ => rfl⟩
    unfold fs_alloc_chain
    rw [if_pos hn0]
  · have hlen : L.length < FS_DATA_POOL_SIZE c := by
      have := Separated_length _ L hsep
      omega
    obtain ⟨pre, e, post, need, hL, hfind, hsum, hpos, hle⟩ :=
      fs_find_last_spec fs.pool L (FS_DATA_POOL_SIZE c) fs.free_list n hchain (by omega) hn hlen
    subst hL
    obtain ⟨mid, hpre, hmid, hne, hsz, hpost⟩ := (IsSeg_append _ _ _ _ _).1 hchain
    subst hmid
    have hsepm := Separated_perm _ _ _ List.perm_middle hsep
    rw [Separated_cons] at hsepm
    obtain ⟨hdis, hb, hrest⟩ := hsepm
    rw [ext_data_eq] at hb
    have hnxt : ext_next fs.pool e.1 < 65536 :=
      IsChain_head_lt fs.pool _ _ post hP hpost
        (Separated_sublist _ _ _ (List.sublist_append_right _ _) hrest)
    unfold fs_alloc_chain
    rw [if_neg hn0, hfind]
    simp only [hsz]
    rw [sizeof_fs_extent_t_eq, ext_data_eq, EXT_SIZE_OFS_eq, EXT_NEXT_OFS_eq]
    simp only [Nat.add_zero]
    have hdis' : ∀ e' ∈ pre ++ post, ∀ x, InHeader e' x → x < e.1 ∨ e.1 + 4 + e.2 ≤ x := by
      intro e' he' x hx
      have := hdis e' he'
      simp only [ExtDisjoint, InHeader, ext_data_eq] at this hx
      omega
    split
    · rename_i hsplit
      have hframe : ∀ x, x < e.1 ∨ e.1 + 4 + e.2 ≤ x →
          wr16 (wr16 (wr16 (wr16 fs.pool (e.1 + 4 + need) (e.2 - need - 4))
            (e.1 + 4 + need + 2) (ext_next fs.pool e.1)) e.1 need) (e.1 + 2) FS_NULL_OFFSET x
            = fs.pool x := by
        intro x hx
        rw [wr16_other _ _ _ _ (by omega) (by omega), wr16_other _ _ _ _ (by omega) (by omega),
          wr16_other _ _ _ _ (by omega) (by omega), wr16_other _ _ _ _ (by omega) (by omega)]
      refine ⟨_, _, pre ++ [(e.1, need)],
        (e.1 + 4 + need, e.2 - need - 4) :: post, rfl, rfl, ?_, ?_, ?_, ?_, rfl, ?_, ?_,
        fun h => absurd h hn0⟩
      · refine (IsSeg_append _ _ _ _ _).2 ⟨e.1, ?_, rfl, hne, ?_, ?_⟩
        · exact IsSeg_congr _ _ _ _ _
            (fun e' he' x hx => hframe x (hdis' e' (List.mem_append_left _ he') x hx)) hpre
        · show ext_size _ e.1 = need
          rw [ext_size_eq, rd16_wr16_other _ _ _ _ (by omega), rd16_wr16_same _ _ _ (by omega)]
        · show ext_next _ e.1 = FS_NULL_OFFSET
          rw [ext_next_eq, rd16_wr16_same _ _ _ (by decide)]
      · refine ⟨rfl, ?_, ?_, ?_⟩
        · show e.1 + 4 + need ≠ 0xFFFF
          omega
        · show ext_size _ (e.1 + 4 + need) = e.2 - need - 4
          rw [ext_size_eq, rd16_wr16_other _ _ _ _ (by omega),
            rd16_wr16_other _ _ _ _ (by omega), rd16_wr16_other _ _ _ _ (by omega),
            rd16_wr16_same _ _ _ (by omega)]
        · show IsSeg _ (ext_next _ (e.1 + 4 + need)) post FS_NULL_OFFSET
          rw [ext_next_eq _ (e.1 + 4 + need), rd16_wr16_other _ _ _ _ (by omega),
            rd16_wr16_other _ _ _ _ (by omega), rd16_wr16_same _ _ _ hnxt]
          exact IsSeg_congr _ _ _ _ _
            (fun e' he' x hx => hframe x (hdis' e' (List.mem_append_right _ he') x hx)) hpost
      · have : pre ++ [(e.1, need)] ++ (e.1 + 4 + need, e.2 - need - 4) :: post
            = pre ++ (e.1, need) :: (e.1 + 4 + need, e.2 - need - 4) :: post := by simp
        rw [this]
        apply Separated_split _ pre post e _ _ hsep
        · simp only [ext_data_eq]; omega
        · simp only [ext_data_eq]; omega
        · left
          simp only [ext_data_eq]
          omega
      · rw [extCapacity_append, extCapacity_cons, extCapacity_nil]
        omega
      · intro e' he'
        simp only [List.mem_append, List.mem_cons, List.mem_singleton, List.not_mem_nil,
          or_false] at he'
        rcases he' with (he' | rfl) | rfl | he'
        · exact ⟨e', List.mem_append_left _ he', le_rfl, le_rfl⟩
        · exact ⟨e, by simp, le_rfl, by simp only [ext_data_eq]; omega⟩
        · exact ⟨e, by simp, by simp only []; omega, by simp only [ext_data_eq]; omega⟩
        · exact ⟨e', List.mem_append_right _ (List.mem_cons_of_mem _ he'), le_rfl, le_rfl⟩
      · intro x hx
        apply hframe
        have := hx e (by simp)
        simp only [InRegion, ext_data_eq] at this
        omega
    · rename_i hsplit
      have hframe : ∀ x, x < e.1 ∨ e.1 + 4 + e.2 ≤ x →
          wr16 fs.pool (e.1 + 2) FS_NULL_OFFSET x = fs.pool x := by
        intro x hx
        rw [wr16_other _ _ _ _ (by omega) (by omega)]
      refine ⟨_, _, pre ++ [e], post, rfl, rfl, ?_, ?_, ?_, ?_, rfl, ?_, ?_,
        fun h => absurd h hn0⟩
      · refine (IsSeg_append _ _ _ _ _).2 ⟨e.1, ?_, rfl, hne, ?_, ?_⟩
        · exact IsSeg_congr _ _ _ _ _
            (fun e' he' x hx => hframe x (hdis' e' (List.mem_append_left _ he') x hx)) hpre
        · show ext_size _ e.1 = e.2
          rw [ext_size_eq, rd16_wr16_other _ _ _ _ (by omega), ← ext_size_eq]
          exact hsz
        · show ext_next _ e.1 = FS_NULL_OFFSET
          rw [ext_next_eq, rd16_wr16_same _ _ _ (by decide)]
      · exact IsSeg_congr _ _ _ _ _
          (fun e' he' x hx => hframe x (hdis' e' (List.mem_append_right _ he') x hx)) hpost
      · have : pre ++ [e] ++ post = pre ++ e :: post := by simp
        rw [this]
        exact hsep
      · rw [extCapacity_append, extCapacity_cons, extCapacity_nil]
        omega
      · intro e' he'
        simp only [List.mem_append, List.mem_cons, List.mem_singleton, List.not_mem_nil,
          or_false] at he'
        rcases he' with (he' | rfl) | he'
        · exact ⟨e', List.mem_append_left _ he', le_rfl, le_rfl⟩
        · exact ⟨e', by simp, le_rfl, le_rfl⟩
        · exact ⟨e', List.mem_append_right _ (List.mem_cons_of_mem _ he'), le_rfl, le_rfl⟩
      · intro x hx
        apply hframe
        have := hx e (by simp)
        simp only [InRegion, ext_data_eq] at this
        omega


/-- Copying bytes into a well-formed chain ends and changes payload bytes of the
chain only, whatever the bytes and their number. -/
theorem fs_copy_in_frame (P : Nat) :
    ∀ (C : List (Nat × Nat)) (fuel : Nat) (pool : Nat → Nat) (head : Nat) (d : List Nat),
      IsChain pool head C → Separated P C → C.length < fuel →
      ∃ pool', fs_copy_in fuel pool head d = some pool' ∧
        (∀ x, (∀ e ∈ C, ¬ InPayload e x) → pool' x = pool x) := by
  intro C
  induction C with
  | nil =>
    intro fuel pool head d hc _ hfuel
    cases fuel with
    | zero => simp at hfuel
    | succ f =>
      have hh : head = FS_NULL_OFFSET := hc
      refine ⟨pool, ?_, fun _ _ => rfl⟩
      unfold fs_copy_in
      by_cases hd : d = []
      · rw [if_pos hd]
      · rw [if_neg hd, if_pos hh]
  | cons e rest ih =>
    intro fuel pool head d hc hsep hfuel
    cases fuel with
    | zero => simp at hfuel
    | succ f =>
      by_cases hd : d = []
      · subst hd
        exact ⟨pool, by unfold fs_copy_in; rw [if_pos rfl], fun _ _ => rfl⟩
      · obtain ⟨h1, h2, h3, h4⟩ := hc
        subst h1
        rw [Separated_cons] at hsep
        obtain ⟨hdis, hb, hsep'⟩ := hsep
        have htl : (d.take e.2).length = min e.2 d.length := List.length_take _ _
        have hw : ∀ x, x < e.1 + 4 ∨ e.1 + 4 + e.2 ≤ x →
            writeBytes pool (ext_data e.1) (d.take e.2) x = pool x := by
          intro x hx
          apply writeBytes_other
          rw [htl, ext_data_eq]
          omega
        obtain ⟨pool', hcopy, hframe⟩ := ih f
          (writeBytes pool (ext_data e.1) (d.take e.2)) (ext_next pool e.1) (d.drop e.2)
          (IsSeg_congr _ _ _ _ _ (by
            intro e' he' x hx
            apply hw
            have := hdis e' he'
            simp only [ExtDisjoint, InHeader, ext_data_eq] at this hx
            omega) h4)
          hsep' (by simp only [List.length_cons] at hfuel; omega)
        refine ⟨pool', ?_, ?_⟩
        · unfold fs_copy_in
          rw [if_neg hd, if_neg h2, h3]
          exact hcopy
        · intro x hx
          rw [hframe x (fun e' he' => hx e' (List.mem_cons_of_mem _ he'))]
          apply hw
          have := hx e (List.mem_cons_self _ _)
          simp only [InPayload, ext_data_eq] at this
          omega

/-- Copying bytes into a well-formed chain changes payload bytes only, and the
payloads then hold the bytes in chain order. -/
theorem fs_copy_in_spec (P : Nat) :
    ∀ (C : List (Nat × Nat)) (fuel : Nat) (pool : Nat → Nat) (head : Nat) (d : List Nat),
      IsChain pool head C → Separated P C → d.length ≤ extCapacity C →
      (∀ x ∈ d, x < 256) → C.length < fuel →
      ∃ pool', fs_copy_in fuel pool head d = some pool' ∧
        (∀ x, (∀ e ∈ C, ¬ InPayload e x) → pool' x = pool x) ∧
        (chainBytes pool' C).take d.length = d := by
  intro C
  induction C with
  | nil =>
    intro fuel pool head d _ _ hlen _ hfuel
    cases fuel with
    | zero => simp at hfuel
    | succ f =>
      have hd : d = [] := by
        rw [extCapacity_nil] at hlen
        exact List.length_eq_zero.1 (by omega)
      subst hd
      exact ⟨pool, by unfold fs_copy_in; rw [if_pos rfl], fun _ _ => rfl, rfl⟩
  | cons e rest ih =>
    intro fuel pool head d hc hsep hlen hbytes hfuel
    cases fuel with
    | zero => simp at hfuel
    | succ f =>
      by_cases hd : d = []
      · subst hd
        exact ⟨pool, by unfold fs_copy_in; rw [if_pos rfl], fun _ _ => rfl, by simp⟩
      · obtain ⟨h1, h2, h3, h4⟩ := hc
        subst h1
        rw [Separated_cons] at hsep
        obtain ⟨hdis, hb, hsep'⟩ := hsep
        rw [extCapacity_cons] at hlen
        have htl : (d.take e.2).length = min e.2 d.length := List.length_take _ _
        have hw : ∀ x, x < e.1 + 4 ∨ e.1 + 4 + e.2 ≤ x →
            writeBytes pool (ext_data e.1) (d.take e.2) x = pool x := by
          intro x hx
          apply writeBytes_other
          rw [htl, ext_data_eq]
          omega
        obtain ⟨pool', hcopy, hframe, hres⟩ := ih f
          (writeBytes pool (ext_data e.1) (d.take e.2)) (ext_next pool e.1) (d.drop e.2)
          (IsSeg_congr _ _ _ _ _ (by
            intro e' he' x hx
            apply hw
            have := hdis e' he'
            simp only [ExtDisjoint, InHeader, ext_data_eq] at this hx
            omega) h4)
          hsep' (by rw [List.length_drop]; omega)
          (fun x hx => hbytes x (List.mem_of_mem_drop hx))
          (by simp only [List.length_cons] at hfuel; omega)
        refine ⟨pool', ?_, ?_, ?_⟩
        · unfold fs_copy_in
          rw [if_neg hd, if_neg h2, h3]
          exact hcopy
        · intro x hx
          rw [hframe x (fun e' he' => hx e' (List.mem_cons_of_mem _ he'))]
          apply hw
          have := hx e (List.mem_cons_self _ _)
          simp only [InPayload, ext_data_eq] at this
          omega
        · have hfirst : (readBytes pool' (ext_data e.1) e.2).take d.length = d.take e.2 := by
            rw [readBytes_take]
            have hc1 : readBytes pool' (ext_data e.1) (min e.2 d.length)
                = readBytes (writeBytes pool (ext_data e.1) (d.take e.2)) (ext_data e.1)
                    (min e.2 d.length) := by
              apply readBytes_congr
              intro x hx1 hx2
              apply hframe
              intro e' he' hin
              have := hdis e' he'
              simp only [ExtDisjoint, InPayload, ext_data_eq] at this hin hx1 hx2
              omega
            rw [hc1, ← htl]
            exact readBytes_writeBytes _ _ _
              (fun x hx => hbytes x (List.mem_of_mem_take hx))
          show (readBytes pool' (ext_data e.1) e.2 ++ chainBytes pool' rest).take d.length = d
          rw [List.take_append_eq_append_take, hfirst, readBytes_length]
          rw [List.length_drop] at hres
          rw [hres]
          exact List.take_append_drop _ _

/-- Reading from a well-formed chain returns its payload bytes in chain order. -/
theorem fs_copy_out_spec (pool : Nat → Nat) :
    ∀ (C : List (Nat × Nat)) (fuel head need : Nat),
      IsChain pool head C → need ≤ extCapacity C → C.length < fuel →
      fs_copy_out pool fuel head need = some ((chainBytes pool C).take need) := by
  intro C
  induction C with
  | nil =>
    intro fuel head need _ hneed hfuel
    cases fuel with
    | zero => simp at hfuel
    | succ f =>
      rw [extCapacity_nil] at hneed
      have : need = 0 := by omega
      subst this
      unfold fs_copy_out
      rw [if_pos rfl]
      rfl
  | cons e rest ih =>
    intro fuel head need hc hneed hfuel
    cases fuel with
    | zero => simp at hfuel
    | succ f =>
      obtain ⟨h1, h2, h3, h4⟩ := hc
      subst h1
      rw [extCapacity_cons] at hneed
      unfold fs_copy_out
      by_cases hz : need = 0
      · rw [if_pos hz, hz]
        simp
      · rw [if_neg hz, if_neg h2, h3,
          ih f (ext_next pool e.1) (need - min e.2 need) h4 (by omega)
            (by simp only [List.length_cons] at hfuel; omega)]
        show some _ = some ((readBytes pool (ext_data e.1) e.2 ++ chainBytes pool rest).take need)
        rw [List.take_append_eq_append_take, readBytes_take, readBytes_length]
        have : need - min e.2 need = need - e.2 := by omega
        rw [this]

theorem Separated_mem_mem (P : Nat) (l : List (Nat × Nat)) (h : Separated P l)
    (e e' : Nat × Nat) (he : e ∈ l) (he' : e' ∈ l) : e = e' ∨ ExtDisjoint e e' := by
  by_cases heq : e = e'
  · exact Or.inl heq
  · exact Or.inr (h.1.forall (fun a b hab => ExtDisjoint_symm a b hab) he he' heq)

/-- No header byte of a separated list of extents is a payload byte of it. -/
theorem header_not_payload (P : Nat) (l : List (Nat × Nat)) (h : Separated P l)
    (e' : Nat × Nat) (he' : e' ∈ l) (x : Nat) (hx : InHeader e' x) :
    ∀ e ∈ l, ¬ InPayload e x := by
  intro e he hin
  simp only [InHeader, InPayload, ext_data_eq] at hx hin
  rcases Separated_mem_mem P l h e e' he he' with rfl | hd
  · omega
  · simp only [ExtDisjoint, ext_data_eq] at hd
    omega

theorem extCapacity_reverse (l : List (Nat × Nat)) : extCapacity l.reverse = extCapacity l := by
  simp [extCapacity, List.sum_reverse]

/-- The allocation walk reports NoSpace when the free list does not cover the
request. -/
theorem fs_find_last_none (pool : Nat → Nat) :
    ∀ (L : List (Nat × Nat)) (fuel head need : Nat),
      IsChain pool head L → extCapacity L < need → L.length < fuel →
      fs_find_last pool fuel head need = some none := by
  intro L
  induction L with
  | nil =>
    intro fuel head need hc _ hfuel
    cases fuel with
    | zero => simp at hfuel
    | succ f =>
      have : head = FS_NULL_OFFSET := hc
      unfold fs_find_last
      rw [if_pos this]
  | cons e rest ih =>
    intro fuel head need hc hcap hfuel
    cases fuel with
    | zero => simp at hfuel
    | succ f =>
      obtain ⟨h1, h2, h3, h4⟩ := hc
      subst h1
      rw [extCapacity_cons] at hcap
      unfold fs_find_last
      rw [if_neg h2, h3, if_neg (by omega)]
      exact ih f _ _ h4 (by omega) (by simp only [List.length_cons] at hfuel; omega)


/-! ## Extent pool: the invariant of the region -/

theorem ownedExts_mem (chains : Nat → List (Nat × Nat)) (B : Nat) (e : Nat × Nat) :
    e ∈ ownedExts chains B ↔ ∃ i, i < B ∧ e ∈ chains i := by
  induction B with
  | zero => simp [ownedExts]
  | succ B ih =>
    simp only [ownedExts, List.mem_append, ih]
    constructor
    · rintro (⟨i, hi, he⟩ | he)
      · exact ⟨i, by omega, he⟩
      · exact ⟨B, by omega, he⟩
    · rintro ⟨i, hi, he⟩
      by_cases h : i = B
      · subst h
        exact Or.inr he
      · exact Or.inl ⟨i, by omega, he⟩

theorem ownedExts_congr (chains chains' : Nat → List (Nat × Nat)) (B : Nat)
    (h : ∀ i, i < B → chains i = chains' i) : ownedExts chains B = ownedExts chains' B := by
  induction B with
  | zero => rfl
  | succ B ih =>
    simp only [ownedExts]
    rw [ih (fun i hi => h i (by omega)), h B (by omega)]

theorem ownedExts_extend (chains : Nat → List (Nat × Nat)) (B B' : Nat)
    (h : ∀ i, B ≤ i → chains i = []) (hle : B ≤ B') :
    ownedExts chains B' = ownedExts chains B := by
  induction B' with
  | zero =>
    have : B = 0 := by omega
    subst this
    rfl
  | succ B' ih =>
    by_cases hb : B = B' + 1
    · subst hb
      rfl
    · simp only [ownedExts]
      rw [ih (by omega), h B' (by omega), List.append_nil]

theorem ownedExts_update_perm (chains : Nat → List (Nat × Nat)) (f B : Nat)
    (C : List (Nat × Nat)) (hf : f < B) :
    List.Perm (ownedExts (Function.update chains f C) B)
      (C ++ ownedExts (Function.update chains f []) B) := by
  induction B with
  | zero => omega
  | succ B ih =>
    simp only [ownedExts]
    by_cases h : f = B
    · subst h
      rw [Function.update_same, Function.update_same, List.append_nil]
      have : ownedExts (Function.update chains f C) f
          = ownedExts (Function.update chains f []) f :=
        ownedExts_congr _ _ _ (fun i hi => by
          rw [Function.update_noteq (by omega), Function.update_noteq (by omega)])
      rw [this]
      exact List.perm_append_comm
    · have := ih (by omega)
      rw [Function.update_noteq (Ne.symm h), Function.update_noteq (Ne.symm h)]
      exact (this.append_right _).trans (by rw [List.append_assoc])

/-- Replacing a group of extents by extents that lie inside them keeps a list
separated. -/
theorem Separated_replace (P : Nat) (X Y O : List (Nat × Nat))
    (h : Separated P (X ++ O)) (hY : Separated P Y)
    (hcov : ∀ y ∈ Y, ∃ x ∈ X, Within y x) : Separated P (Y ++ O) := by
  obtain ⟨hp, hb⟩ := h
  rw [List.pairwise_append] at hp
  obtain ⟨_, hO, hXO⟩ := hp
  refine ⟨List.pairwise_append.2 ⟨hY.1, hO, ?_⟩, ?_⟩
  · intro y hy o ho
    obtain ⟨x, hx, hw⟩ := hcov y hy
    have := hXO x hx o ho
    simp only [ExtDisjoint, Within, ext_data_eq] at this hw ⊢
    omega
  · intro e he
    rcases List.mem_append.1 he with h1 | h1
    · exact hY.2 e h1
    · exact hb e (List.mem_append_right _ h1)

/-- In a well-formed region the chain of one node, the chains of the other
nodes and the free list are separated from each other. -/
theorem FsInv_split (P : Nat) (chains : Nat → List (Nat × Nat)) (F : List (Nat × Nat))
    (B f : Nat) (h3 : ∀ i, B ≤ i → chains i = [])
    (h5 : Separated P (ownedExts chains B ++ F)) :
    Separated P (chains f ++ (ownedExts (Function.update chains f []) (max B (f + 1)) ++ F)) := by
  have hext : ownedExts chains (max B (f + 1)) = ownedExts chains B :=
    ownedExts_extend chains B _ h3 (le_max_left _ _)
  have hperm := ownedExts_update_perm chains f (max B (f + 1)) (chains f)
    (by have := le_max_right B (f + 1); omega)
  rw [Function.update_eq_self, hext] at hperm
  have := Separated_perm P _ _ (hperm.append_right F) h5
  rw [List.append_assoc] at this
  exact this

/-- The invariant survives an operation that replaces the chain of node `f` and
the free list by extents lying inside them, and changes no byte outside. -/
theorem FsInv_replace (c : Config) (fs fs' : FS) (f : Nat)
    (chains : Nat → List (Nat × Nat)) (F : List (Nat × Nat)) (B : Nat)
    (h1 : ∀ i, (fs.nodes i).size ≠ 0 → IsChain fs.pool (fs.nodes i).data_offset (chains i))
    (h2 : ∀ i, (fs.nodes i).size = 0 → chains i = [])
    (h3 : ∀ i, B ≤ i → chains i = [])
    (h5 : Separated (FS_DATA_POOL_SIZE c) (ownedExts chains B ++ F))
    (C F' : List (Nat × Nat))
    (hF' : IsChain fs'.pool fs'.free_list F')
    (hsep : Separated (FS_DATA_POOL_SIZE c) (C ++ F'))
    (hcov : ∀ e' ∈ C ++ F', ∃ e ∈ chains f ++ F, Within e' e)
    (hframe : ∀ x, (∀ e ∈ chains f ++ F, ¬ InRegion e x) → fs'.pool x = fs.pool x)
    (hnodes : ∀ i, i ≠ f → (fs'.nodes i).size = (fs.nodes i).size ∧
      (fs'.nodes i).data_offset = (fs.nodes i).data_offset)
    (hf1 : (fs'.nodes f).size ≠ 0 → IsChain fs'.pool (fs'.nodes f).data_offset C)
    (hf2 : (fs'.nodes f).size = 0 → C = []) :
    FsInv c fs' := by
  have hsplit := FsInv_split _ chains F B f h3 h5
  have hpw := hsplit.1
  rw [List.pairwise_append] at hpw
  obtain ⟨_, hOF, hXOF⟩ := hpw
  rw [List.pairwise_append] at hOF
  obtain ⟨_, _, hOFd⟩ := hOF
  refine ⟨Function.update chains f C, F', max B (f + 1), ?_, ?_, ?_, hF', ?_⟩
  · intro i hi
    by_cases hif : i = f
    · subst hif
      rw [Function.update_same]
      exact hf1 hi
    · rw [Function.update_noteq hif]
      obtain ⟨hs, ho⟩ := hnodes i hif
      rw [hs] at hi
      rw [ho]
      refine IsSeg_congr _ _ _ _ _ ?_ (h1 i hi)
      intro e he x hx
      apply hframe
      intro r hr hin
      have hiB : i < max B (f + 1) := by
        by_contra hge
        have := h3 i (by have := le_max_left B (f + 1); omega)
        rw [this] at he
        exact absurd he (List.not_mem_nil _)
      have heO : e ∈ ownedExts (Function.update chains f []) (max B (f + 1)) :=
        (ownedExts_mem _ _ _).2 ⟨i, hiB, by rw [Function.update_noteq hif]; exact he⟩
      have hd : ExtDisjoint r e := by
        rcases List.mem_append.1 hr with hr | hr
        · exact hXOF r hr e (List.mem_append_left _ heO)
        · exact ExtDisjoint_symm _ _ (hOFd e heO r hr)
      simp only [ExtDisjoint, InRegion, InHeader, ext_data_eq] at hd hin hx
      omega
  · intro i hi
    by_cases hif : i = f
    · subst hif
      rw [Function.update_same]
      exact hf2 hi
    · rw [Function.update_noteq hif]
      exact h2 i (by rw [← (hnodes i hif).1]; exact hi)
  · intro i hi
    have hif : i ≠ f := by
      have := le_max_right B (f + 1)
      omega
    rw [Function.update_noteq hif]
    exact h3 i (by have := le_max_left B (f + 1); omega)
  · have hperm := ownedExts_update_perm chains f (max B (f + 1)) C
      (by have := le_max_right B (f + 1); omega)
    have hX : Separated (FS_DATA_POOL_SIZE c)
        ((chains f ++ F) ++ ownedExts (Function.update chains f []) (max B (f + 1))) := by
      refine Separated_perm _ _ _ ?_ hsplit
      rw [List.append_assoc]
      exact List.Perm.append_left _ List.perm_append_comm
    have hY := Separated_replace _ _ _ _ hX hsep hcov
    refine Separated_perm _ _ _ ?_ hY
    have p1 : List.Perm (C ++ F' ++ ownedExts (Function.update chains f []) (max B (f + 1)))
        (C ++ ownedExts (Function.update chains f []) (max B (f + 1)) ++ F') := by
      rw [List.append_assoc, List.append_assoc]
      exact List.Perm.append_left _ List.perm_append_comm
    exact p1.trans (hperm.symm.append_right F')

/-- The invariant only depends on the pool, the free-list head and the content
fields of the nodes. -/
theorem FsInv_of_same_content (c : Config) (fs fs' : FS) (h : FsInv c fs)
    (hpool : fs'.pool = fs.pool) (hfl : fs'.free_list = fs.free_list)
    (hnodes : ∀ i, (fs'.nodes i).size = (fs.nodes i).size ∧
      (fs'.nodes i).data_offset = (fs.nodes i).data_offset) :
    FsInv c fs' := by
  obtain ⟨chains, F, B, h1, h2, h3, h4, h5⟩ := h
  refine ⟨chains, F, B, ?_, ?_, h3, ?_, h5⟩
  · intro i hi
    rw [hpool, (hnodes i).2]
    exact h1 i (by rw [← (hnodes i).1]; exact hi)
  · intro i hi
    exact h2 i (by rw [← (hnodes i).1]; exact hi)
  · rw [hpool, hfl]
    exact h4

theorem FsInv_local (P : Nat) (chains : Nat → List (Nat × Nat)) (F : List (Nat × Nat))
    (B f : Nat) (h3 : ∀ i, B ≤ i → chains i = [])
    (h5 : Separated P (ownedExts chains B ++ F)) : Separated P (chains f ++ F) :=
  Separated_sublist P _ _
    (List.Sublist.append (List.Sublist.refl _) (List.sublist_append_right _ _))
    (FsInv_split P chains F B f h3 h5)

/-- Releasing the content of a node ends: the extents of its chain are pushed on
the free list, only their header bytes change, and the node is empty
afterwards. -/
theorem fs_release_content_spec (c : Config) (hc : c ∈ configs) (fs : FS) (f : Nat)
    (chains : Nat → List (Nat × Nat)) (F : List (Nat × Nat)) (B : Nat)
    (h1 : ∀ i, (fs.nodes i).size ≠ 0 → IsChain fs.pool (fs.nodes i).data_offset (chains i))
    (h2 : ∀ i, (fs.nodes i).size = 0 → chains i = [])
    (h3 : ∀ i, B ≤ i → chains i = [])
    (h4 : IsChain fs.pool fs.free_list F)
    (h5 : Separated (FS_DATA_POOL_SIZE c) (ownedExts chains B ++ F)) :
    ∃ fs1, fs_release_content c fs f = some fs1 ∧
      IsChain fs1.pool fs1.free_list ((chains f).reverse ++ F) ∧
      (∀ x, (∀ e ∈ chains f, ¬ InHeader e x) → fs1.pool x = fs.pool x) ∧
      (∀ i, i ≠ f → fs1.nodes i = fs.nodes i) ∧
      (fs1.nodes f).perms = (fs.nodes f).perms ∧ (fs1.nodes f).size = 0 ∧
      fs1.free_nodes = fs.free_nodes := by
  obtain ⟨hP3, hP⟩ := pool_size_bounds c hc
  have hloc := FsInv_local _ chains F B f h3 h5
  by_cases hs : (fs.nodes f).size = 0
  · refine ⟨fs, ?_, ?_, fun _ _ => rfl, fun _ _ => rfl, rfl, hs, rfl⟩
    · unfold fs_release_content
      rw [if_pos hs]
    · rw [h2 f hs]
      exact h4
  · have hlen : (chains f).length < FS_DATA_POOL_SIZE c := by
      have := Separated_length _ _
        (Separated_sublist _ _ _ (List.sublist_append_left _ _) hloc)
      omega
    obtain ⟨fs1, hrel, hn, hfn, hL, hfr⟩ :=
      fs_release_chain_spec _ hP (chains f) _ fs _ F (h1 f hs) h4 hloc hlen
    refine ⟨fs1.setNode f { fs1.nodes f with size := 0, data_offset := FS_NULL_OFFSET },
      ?_, hL, hfr, ?_, ?_, ?_, hfn⟩
    · unfold fs_release_content
      rw [if_neg hs, hrel]
    · intro i hi
      simp only [FS.setNode, if_neg hi, hn]
    · simp only [FS.setNode, if_true, hn]
    · simp only [FS.setNode, if_true]

/-- Releasing the content of a node keeps the region well-formed. -/
theorem FsInv_release_content (c : Config) (hc : c ∈ configs) (fs fs1 : FS) (f : Nat)
    (h : FsInv c fs) (hr : fs_release_content c fs f = some fs1) : FsInv c fs1 := by
  obtain ⟨chains, F, B, h1, h2, h3, h4, h5⟩ := h
  obtain ⟨fs1', hr', hL, hfr, hn, _, hs, _⟩ :=
    fs_release_content_spec c hc fs f chains F B h1 h2 h3 h4 h5
  rw [hr] at hr'
  obtain rfl := Option.some.inj hr'
  have hloc := FsInv_local _ chains F B f h3 h5
  refine FsInv_replace c fs fs1 f chains F B h1 h2 h3 h5 [] ((chains f).reverse ++ F) hL
    ?_ ?_ ?_ ?_ (fun hne => absurd hs hne) (fun _ => rfl)
  · exact Separated_perm _ _ _ ((List.reverse_perm _).symm.append_right F) hloc
  · intro e' he'
    refine ⟨e', ?_, le_rfl, le_rfl⟩
    simp only [List.nil_append, List.mem_append, List.mem_reverse] at he' ⊢
    exact he'
  · intro x hx
    apply hfr
    intro e he hin
    apply hx e (List.mem_append_left _ he)
    simp only [InHeader, InRegion, ext_data_eq] at hin ⊢
    omega
  · intro i hi
    rw [hn i hi]
    exact ⟨rfl, rfl⟩

/-- A write of `size` bytes that the free extents and the file's own extents
cover succeeds: the file gets a well-formed chain of at least that capacity, into
which the bytes are copied, and the region stays well-formed. -/
theorem fs_write_file_ok (c : Config) (hc : c ∈ configs) (fs : FS) (f : Nat)
    (chains : Nat → List (Nat × Nat)) (F : List (Nat × Nat)) (B : Nat)
    (h1 : ∀ i, (fs.nodes i).size ≠ 0 → IsChain fs.pool (fs.nodes i).data_offset (chains i))
    (h2 : ∀ i, (fs.nodes i).size = 0 → chains i = [])
    (h3 : ∀ i, B ≤ i → chains i = [])
    (h4 : IsChain fs.pool fs.free_list F)
    (h5 : Separated (FS_DATA_POOL_SIZE c) (ownedExts chains B ++ F))
    (hw : (fs.nodes f).perms.write ≠ 0) (hd : (fs.nodes f).perms.is_directory = 0)
    (data : List Nat) (size : Nat)
    (hfit : size ≤ extCapacity (chains f) + extCapacity F) :
    ∃ (head : Nat) (fs2 : FS) (C : List (Nat × Nat)) (pool3 : Nat → Nat),
      fs_write_file c fs f data size = some (none,
        { fs2 with pool := pool3 }.setNode f
          { fs2.nodes f with size := size, data_offset := head }) ∧
      fs_copy_in (FS_DATA_POOL_SIZE c) fs2.pool head (data.take size) = some pool3 ∧
      IsChain fs2.pool head C ∧ Separated (FS_DATA_POOL_SIZE c) C ∧
      size ≤ extCapacity C ∧ (fs2.nodes f).perms = (fs.nodes f).perms ∧
      FsInv c ({ fs2 with pool := pool3 }.setNode f
        { fs2.nodes f with size := size, data_offset := head }) := by
  obtain ⟨hP3, hP⟩ := pool_size_bounds c hc
  obtain ⟨fs1, hrc, hL, hfr1, hn1, hp1, hs1, _⟩ :=
    fs_release_content_spec c hc fs f chains F B h1 h2 h3 h4 h5
  have hloc := FsInv_local _ chains F B f h3 h5
  have hsepL : Separated (FS_DATA_POOL_SIZE c) ((chains f).reverse ++ F) :=
    Separated_perm _ _ _ ((List.reverse_perm _).symm.append_right F) hloc
  obtain ⟨head, fs2, C, F', halloc, hn2, hC, hF, hsepCF, hcapC, _, hcov, hfr2, hC0⟩ :=
    fs_alloc_chain_spec c hc fs1 _ size hL hsepL
      (by rw [extCapacity_append, extCapacity_reverse]; exact hfit)
  have hsepC : Separated (FS_DATA_POOL_SIZE c) C :=
    Separated_sublist _ _ _ (List.sublist_append_left _ _) hsepCF
  have hlenC : C.length < FS_DATA_POOL_SIZE c := by
    have := Separated_length _ _ hsepC
    omega
  obtain ⟨pool3, hcopy, hfr3⟩ :=
    fs_copy_in_frame _ C _ fs2.pool head (data.take size) hC hsepC hlenC
  have hC3 : IsChain pool3 head C :=
    IsSeg_congr _ _ _ _ _
      (fun e' he' x hx => hfr3 x (header_not_payload _ C hsepC e' he' x hx)) hC
  have hF3 : IsChain pool3 fs2.free_list F' :=
    IsSeg_congr _ _ _ _ _
      (fun e' he' x hx => hfr3 x (fun e he =>
        header_not_payload _ _ hsepCF e' (List.mem_append_right _ he') x hx e
          (List.mem_append_left _ he))) hF
  have hcov' : ∀ e' ∈ C ++ F', ∃ e ∈ chains f ++ F, Within e' e := by
    intro e' he'
    obtain ⟨e, he, hwi⟩ := hcov e' he'
    refine ⟨e, ?_, hwi⟩
    simp only [List.mem_append, List.mem_reverse] at he ⊢
    exact he
  refine ⟨head, fs2, C, pool3, ?_, hcopy, hC, hsepC, hcapC, by rw [hn2]; exact hp1, ?_⟩
  · unfold fs_write_file
    rw [if_neg hw, if_neg (not_not.2 hd), hrc]
    simp only [halloc, hcopy]
  · refine FsInv_replace c fs _ f chains F B h1 h2 h3 h5 C F' hF3 hsepCF hcov' ?_ ?_ ?_ ?_
    · intro x hx
      show pool3 x = fs.pool x
      have hxL : ∀ e ∈ (chains f).reverse ++ F, ¬ InRegion e x := by
        intro e he
        apply hx e
        simp only [List.mem_append, List.mem_reverse] at he ⊢
        exact he
      rw [hfr3 x, hfr2 x hxL, hfr1 x]
      · intro e he hin
        apply hx e (List.mem_append_left _ he)
        simp only [InHeader, InRegion, ext_data_eq] at hin ⊢
        omega
      · intro e' he' hin
        obtain ⟨e, he, hwi⟩ := hcov e' (List.mem_append_left _ he')
        apply hxL e he
        simp only [InPayload, InRegion, Within, ext_data_eq] at hin hwi ⊢
        omega
    · intro i hi
      simp only [FS.setNode, if_neg hi, hn2]
      rw [hn1 i hi]
      exact ⟨rfl, rfl⟩
    · intro _
      simp only [FS.setNode, if_true]
      exact hC3
    · intro hz
      simp only [FS.setNode, if_true] at hz
      exact hC0 hz

/-- A write of more bytes than the free extents and the file's own extents
cover ends with NoSpace and leaves the region well-formed. -/
theorem fs_write_file_no_space (c : Config) (hc : c ∈ configs) (fs : FS) (f : Nat)
    (chains : Nat → List (Nat × Nat)) (F : List (Nat × Nat)) (B : Nat)
    (h1 : ∀ i, (fs.nodes i).size ≠ 0 → IsChain fs.pool (fs.nodes i).data_offset (chains i))
    (h2 : ∀ i, (fs.nodes i).size = 0 → chains i = [])
    (h3 : ∀ i, B ≤ i → chains i = [])
    (h4 : IsChain fs.pool fs.free_list F)
    (h5 : Separated (FS_DATA_POOL_SIZE c) (ownedExts chains B ++ F))
    (hw : (fs.nodes f).perms.write ≠ 0) (hd : (fs.nodes f).perms.is_directory = 0)
    (data : List Nat) (size : Nat)
    (hfit : extCapacity (chains f) + extCapacity F < size) :
    ∃ fs1, fs_write_file c fs f data size = some (some FsError.NoSpace, fs1) ∧
      FsInv c fs1 := by
  obtain ⟨hP3, hP⟩ := pool_size_bounds c hc
  obtain ⟨fs1, hrc, hL, _, _, _, _, _⟩ :=
    fs_release_content_spec c hc fs f chains F B h1 h2 h3 h4 h5
  have hinv1 : FsInv c fs1 :=
    FsInv_release_content c hc fs fs1 f ⟨chains, F, B, h1, h2, h3, h4, h5⟩ hrc
  have hloc := FsInv_local _ chains F B f h3 h5
  have hsepL : Separated (FS_DATA_POOL_SIZE c) ((chains f).reverse ++ F) :=
    Separated_perm _ _ _ ((List.reverse_perm _).symm.append_right F) hloc
  have hlenL : ((chains f).reverse ++ F).length < FS_DATA_POOL_SIZE c := by
    have := Separated_length _ _ hsepL
    omega
  have hfind := fs_find_last_none fs1.pool _ (FS_DATA_POOL_SIZE c) fs1.free_list size hL
    (by rw [extCapacity_append, extCapacity_reverse]; exact hfit) hlenL
  have halloc : fs_alloc_chain c fs1 size = some (none, fs1) := by
    unfold fs_alloc_chain
    rw [if_neg (by omega), hfind]
  refine ⟨fs1, ?_, hinv1⟩
  unfold fs_write_file
  rw [if_neg hw, if_neg (not_not.2 hd), hrc]
  simp only [halloc]

/-- Every outcome of fs_write_file leaves the region well-formed. -/
theorem FsInv_write_file (c : Config) (hc : c ∈ configs) (fs : FS) (f : Nat)
    (data : List Nat) (size : Nat) (h : FsInv c fs) (r : Option FsError × FS)
    (hr : fs_write_file c fs f data size = some r) : FsInv c r.2 := by
  by_cases hw : (fs.nodes f).perms.write = 0
  · unfold fs_write_file at hr
    rw [if_pos hw] at hr
    obtain rfl := Option.some.inj hr
    exact h
  · by_cases hd : (fs.nodes f).perms.is_directory = 0
    · obtain ⟨chains, F, B, h1, h2, h3, h4, h5⟩ := h
      by_cases hfit : size ≤ extCapacity (chains f) + extCapacity F
      · obtain ⟨head, fs2, C, pool3, hwr, _, _, _, _, _, hinv⟩ :=
          fs_write_file_ok c hc fs f chains F B h1 h2 h3 h4 h5 hw hd data size hfit
        rw [hwr] at hr
        obtain rfl := Option.some.inj hr
        exact hinv
      · obtain ⟨fs1, hwr, hinv⟩ :=
          fs_write_file_no_space c hc fs f chains F B h1 h2 h3 h4 h5 hw hd data size
            (by omega)
        rw [hwr] at hr
        obtain rfl := Option.some.inj hr
        exact hinv
    · unfold fs_write_file at hr
      rw [if_neg hw, if_pos hd] at hr
      obtain rfl := Option.some.inj hr
      exact h

/-! ## Extent pool: the operations keep the region well-formed -/

theorem SameContent_refl (fs : FS) : SameContent fs fs := ⟨rfl, rfl, fun _ => ⟨rfl, rfl⟩⟩

theorem SameContent_trans (fs fs1 fs2 : FS) (h1 : SameContent fs fs1)
    (h2 : SameContent fs1 fs2) : SameContent fs fs2 :=
  ⟨h2.1.trans h1.1, h2.2.1.trans h1.2.1,
    fun i => ⟨((h2.2.2 i).1).trans (h1.2.2 i).1, ((h2.2.2 i).2).trans (h1.2.2 i).2⟩⟩

theorem SameContent_setNode (fs : FS) (i : Nat) (n : fs_node_t)
    (hs : n.size = (fs.nodes i).size) (ho : n.data_offset = (fs.nodes i).data_offset) :
    SameContent fs (fs.setNode i n) := by
  refine ⟨rfl, rfl, fun j => ?_⟩
  by_cases hj : j = i
  · subst hj
    simp only [FS.setNode, if_true]
    exact ⟨hs, ho⟩
  · have : (fs.setNode i n).nodes j = fs.nodes j := by simp only [FS.setNode, if_neg hj]
    rw [this]
    exact ⟨rfl, rfl⟩

theorem FsInv_of_SameContent (c : Config) (fs fs' : FS) (h : FsInv c fs)
    (hs : SameContent fs fs') : FsInv c fs' :=
  FsInv_of_same_content c fs fs' h hs.1 hs.2.1 hs.2.2

theorem SameContent_detach (c : Config) (fs fs' : FS) (node : Nat)
    (h : fs_detach c fs node = some fs') : SameContent fs fs' := by
  unfold fs_detach at h
  simp only [] at h
  split at h
  · obtain rfl := Option.some.inj h
    exact SameContent_setNode _ _ _ rfl rfl
  · split at h
    · exact absurd h (by simp)
    · split at h
      · obtain rfl := Option.some.inj h
        exact SameContent_refl _
      · obtain rfl := Option.some.inj h
        exact SameContent_setNode _ _ _ rfl rfl

theorem SameContent_link_first (fs : FS) (node new_parent : Nat) :
    SameContent fs (fs_link_first fs node new_parent) := by
  unfold fs_link_first
  simp only []
  refine SameContent_trans _ _ _ (SameContent_setNode fs node _ ?_ ?_)
    (SameContent_setNode _ new_parent _ ?_ ?_) <;> rfl

theorem SameContent_move_node (c : Config) (fs : FS) (node new_parent : Nat)
    (r : Option FsError × FS) (h : fs_move_node c fs node new_parent = some r) :
    SameContent fs r.2 := by
  unfold fs_move_node at h
  split at h
  · obtain rfl := Option.some.inj h
    exact SameContent_refl _
  · split at h
    · exact absurd h (by simp)
    · obtain rfl := Option.some.inj h
      exact SameContent_refl _
    · split at h
      · exact absurd h (by simp)
      · rename_i fs1 hdet
        obtain rfl := Option.some.inj h
        exact SameContent_trans _ _ _ (SameContent_detach c _ _ _ hdet)
          (SameContent_link_first _ _ _)

theorem SameContent_rename_node (c : Config) (fs : FS) (node : Nat) (new_name : List Nat)
    (r : Option FsError × FS) (h : fs_rename_node c fs node new_name = some r) :
    SameContent fs r.2 := by
  unfold fs_rename_node at h
  split at h
  · obtain rfl := Option.some.inj h
    exact SameContent_refl _
  · split at h
    · exact absurd h (by simp)
    · obtain rfl := Option.some.inj h
      exact SameContent_refl _
    · obtain rfl := Option.some.inj h
      exact SameContent_setNode _ _ _ rfl rfl

theorem SameContent_chmod_node (fs : FS) (node : Nat) (new_perms : fs_perms_t) :
    SameContent fs (fs_chmod_node fs node new_perms).2 := by
  unfold fs_chmod_node
  split
  · exact SameContent_refl _
  · exact SameContent_setNode _ _ _ rfl rfl

theorem FsInv_create_node (c : Config) (fs : FS) (parent : Nat) (name : List Nat)
    (perms : fs_perms_t) (is_dir : Nat) (h : FsInv c fs) (r : Option FsError × Nat × FS)
    (hr : fs_create_node c fs parent name perms is_dir = some r) : FsInv c r.2.2 := by
  unfold fs_create_node at hr
  split at hr
  · obtain rfl := Option.some.inj hr
    exact h
  · split at hr
    · obtain rfl := Option.some.inj hr
      exact h
    · split at hr
      · exact absurd hr (by simp)
      · obtain rfl := Option.some.inj hr
        exact h
      · split at hr
        · obtain rfl := Option.some.inj hr
          exact h
        · rename_i slot rest _
          obtain rfl := Option.some.inj hr
          obtain ⟨chains, F, B, h1, h2, h3, h4, h5⟩ := h
          have hslot : ∀ n : fs_node_t, n.size = 0 →
              ((({ fs with free_nodes := rest }.setNode slot n).setNode parent
                { ({ fs with free_nodes := rest }.setNode slot n).nodes parent with
                  first_child := slot }).nodes slot).size = 0 := by
            intro n hn
            by_cases hsp : slot = parent
            · subst hsp
              simp only [FS.setNode, if_true]
              exact hn
            · simp only [FS.setNode, if_neg hsp, if_true]
              exact hn
          refine FsInv_replace c fs _ slot chains F B h1 h2 h3 h5 [] F h4
            (Separated_sublist _ _ _ (List.sublist_append_right _ _) h5)
            (fun e' he' => ⟨e', List.mem_append_right _ he', le_rfl, le_rfl⟩)
            (fun _ _ => rfl) ?_ (fun hne => absurd (hslot _ rfl) hne) (fun _ => rfl)
          intro i hi
          by_cases hip : i = parent
          · subst hip
            simp only [FS.setNode, if_true, if_neg hi]
            exact ⟨trivial, trivial⟩
          · simp only [FS.setNode, if_neg hip, if_neg hi]
            exact ⟨trivial, trivial⟩

theorem FsInv_delete_subtree (c : Config) (hc : c ∈ configs) :
    ∀ (fuel : Nat) (fs : FS) (node : Nat) (fs' : FS), FsInv c fs →
      fs_delete_subtree c fuel fs node = some fs' → FsInv c fs' := by
  intro fuel
  induction fuel with
  | zero =>
    intro fs node fs' _ h
    exact absurd h (by simp [fs_delete_subtree])
  | succ fuel ih =>
    intro fs node fs' hinv h
    unfold fs_delete_subtree at h
    split at h
    · split at h
      · exact absurd h (by simp)
      · rename_i fs1 hchild
        exact ih fs1 node fs' (ih fs _ fs1 hinv hchild) h
    · split at h
      · exact absurd h (by simp)
      · rename_i fs1 hrel
        split at h
        · exact absurd h (by simp)
        · rename_i fs2 hdet
          obtain rfl := Option.some.inj h
          have h1 : FsInv c fs1 := FsInv_release_content c hc fs fs1 node hinv hrel
          have h2 : FsInv c fs2 := FsInv_of_SameContent c fs1 fs2 h1 (SameContent_detach c _ _ _ hdet)
          exact FsInv_of_SameContent c fs2 _ h2 ⟨rfl, rfl, fun _ => ⟨rfl, rfl⟩⟩

theorem FsInv_delete_node (c : Config) (hc : c ∈ configs) (fs : FS) (node : Nat)
    (h : FsInv c fs) (r : Option FsError × FS) (hr : fs_delete_node c fs node = some r) :
    FsInv c r.2 := by
  unfold fs_delete_node at hr
  split at hr
  · obtain rfl := Option.some.inj hr
    exact h
  · split at hr
    · obtain rfl := Option.some.inj hr
      exact h
    · split at hr
      · exact absurd hr (by simp)
      · rename_i fs1 hdel
        obtain rfl := Option.some.inj hr
        exact FsInv_delete_subtree c hc _ fs node fs1 h hdel

/-- The region is well-formed right after fs_init. -/
theorem FsInv_init (c : Config) (hc : c ∈ configs) : FsInv c (fs_init c) := by
  refine ⟨fun _ => [], [(0, FS_DATA_POOL_SIZE c - sizeof_fs_extent_t)], 0, ?_,
    fun _ _ => rfl, fun _ _ => rfl, ?_, ?_⟩
  · intro i hi
    exfalso
    apply hi
    show (if i = 0 then rootNode else zeroNode).size = 0
    split <;> rfl
  · simp only [configs, List.mem_cons, List.mem_singleton, List.not_mem_nil, or_false] at hc
    rcases hc with rfl | rfl <;> decide
  · simp only [configs, List.mem_cons, List.mem_singleton, List.not_mem_nil, or_false] at hc
    rcases hc with rfl | rfl <;> decide

/-- Every call of a filesystem operation that ends leaves the region
well-formed. -/
theorem FsInv_step (c : Config) (hc : c ∈ configs) (fs fs' : FS) (call : FsCall)
    (h : FsInv c fs) (hs : fsStep c fs call = some fs') : FsInv c fs' := by
  cases call with
  | create_file parent name perms =>
    obtain ⟨r, hr, rfl⟩ := Option.map_eq_some'.1 hs
    exact FsInv_create_node c fs parent name perms 0 h r hr
  | create_directory parent name perms =>
    obtain ⟨r, hr, rfl⟩ := Option.map_eq_some'.1 hs
    exact FsInv_create_node c fs parent name perms 1 h r hr
  | delete_node node =>
    obtain ⟨r, hr, rfl⟩ := Option.map_eq_some'.1 hs
    exact FsInv_delete_node c hc fs node h r hr
  | move_node node new_parent =>
    obtain ⟨r, hr, rfl⟩ := Option.map_eq_some'.1 hs
    exact FsInv_of_SameContent c fs _ h (SameContent_move_node c fs node new_parent r hr)
  | rename_node node new_name =>
    obtain ⟨r, hr, rfl⟩ := Option.map_eq_some'.1 hs
    exact FsInv_of_SameContent c fs _ h (SameContent_rename_node c fs node new_name r hr)
  | chmod_node node new_perms =>
    obtain rfl := Option.some.inj hs
    exact FsInv_of_SameContent c fs _ h (SameContent_chmod_node fs node new_perms)
  | write_file file data size =>
    obtain ⟨r, hr, rfl⟩ := Option.map_eq_some'.1 hs
    exact FsInv_write_file c hc fs file data size h r hr

theorem FsInv_runFrom (c : Config) (hc : c ∈ configs) :
    ∀ (calls : List FsCall) (fs fs' : FS), FsInv c fs →
      fsRunFrom c fs calls = some fs' → FsInv c fs' := by
  intro calls
  induction calls with
  | nil =>
    intro fs fs' h hr
    obtain rfl := Option.some.inj hr
    exact h
  | cons call rest ih =>
    intro fs fs' h hr
    unfold fsRunFrom at hr
    split at hr
    · exact absurd hr (by simp)
    · rename_i fs1 hstep
      exact ih fs1 fs' (FsInv_step c hc fs fs1 call h hstep) hr

/-- Every region reached from fs_init by calls of the filesystem operations is
well-formed. -/
theorem FsInv_run (c : Config) (hc : c ∈ configs) (calls : List FsCall) (fs : FS)
    (hr : fsRun c calls = some fs) : FsInv c fs :=
  FsInv_runFrom c hc calls (fs_init c) fs (FsInv_init c hc) hr

/-! ## Writing and reading back -/

theorem fs_chain_capacity_eq (pool : Nat → Nat) :
    ∀ (L : List (Nat × Nat)) (fuel h : Nat), IsChain pool h L → L.length < fuel →
      fs_chain_capacity pool fuel h = extCapacity L := by
  intro L
  induction L with
  | nil =>
    intro fuel h hc hfuel
    cases fuel with
    | zero => simp at hfuel
    | succ f =>
      have : h = FS_NULL_OFFSET := hc
      unfold fs_chain_capacity
      rw [if_pos this]
      rfl
  | cons e rest ih =>
    intro fuel h hc hfuel
    cases fuel with
    | zero => simp at hfuel
    | succ f =>
      obtain ⟨h1, h2, h3, h4⟩ := hc
      subst h1
      unfold fs_chain_capacity
      rw [if_neg h2, h3, ih f _ h4 (by simp only [List.length_cons] at hfuel; omega),
        extCapacity_cons]

/-- In a well-formed region what the pool can hold for a file is the capacity of
the free extents plus that of the file's own extents. -/
theorem fs_available_eq (c : Config) (hc : c ∈ configs) (fs : FS) (f : Nat)
    (chains : Nat → List (Nat × Nat)) (F : List (Nat × Nat)) (B : Nat)
    (h1 : ∀ i, (fs.nodes i).size ≠ 0 → IsChain fs.pool (fs.nodes i).data_offset (chains i))
    (h2 : ∀ i, (fs.nodes i).size = 0 → chains i = [])
    (h3 : ∀ i, B ≤ i → chains i = [])
    (h4 : IsChain fs.pool fs.free_list F)
    (h5 : Separated (FS_DATA_POOL_SIZE c) (ownedExts chains B ++ F)) :
    fs_available c fs f = extCapacity F + extCapacity (chains f) := by
  obtain ⟨hP3, hP⟩ := pool_size_bounds c hc
  have hloc := FsInv_local _ chains F B f h3 h5
  have hlenF : F.length < FS_DATA_POOL_SIZE c := by
    have := Separated_length _ _
      (Separated_sublist _ _ _ (List.sublist_append_right _ _) hloc)
    omega
  have hlenX : (chains f).length < FS_DATA_POOL_SIZE c := by
    have := Separated_length _ _
      (Separated_sublist _ _ _ (List.sublist_append_left _ _) hloc)
    omega
  unfold fs_available
  rw [fs_chain_capacity_eq fs.pool F _ _ h4 hlenF]
  by_cases hs : (fs.nodes f).size = 0
  · rw [if_pos hs, h2 f hs, extCapacity_nil]
  · rw [if_neg hs, fs_chain_capacity_eq fs.pool (chains f) _ _ (h1 f hs) hlenX]

theorem fsRunFrom_append (c : Config) :
    ∀ (l1 l2 : List FsCall) (fs fs1 : FS), fsRunFrom c fs l1 = some fs1 →
      fsRunFrom c fs (l1 ++ l2) = fsRunFrom c fs1 l2 := by
  intro l1
  induction l1 with
  | nil =>
    intro l2 fs fs1 h
    obtain rfl := Option.some.inj h
    rfl
  | cons call rest ih =>
    intro l2 fs fs1 h
    unfold fsRunFrom at h
    split at h
    · exact absurd h (by simp)
    · rename_i fs2 hstep
      show fsRunFrom c fs (call :: (rest ++ l2)) = _
      conv_lhs => unfold fsRunFrom
      simp only [hstep]
      exact ih l2 fs2 fs1 h

/-- C5: in every region reached from fs_init by calls of the filesystem
operations, for every file node with read and write permission and every byte
sequence `d` of length `n` that the extent pool can hold (`n` is at most the
capacity of the free extents plus that of the extents the file holds),
fs_write_file(file, d, n) succeeds and a following fs_read_file(file, buf, cap)
returns min(n, cap) and leaves the first min(n, cap) bytes of buf equal to the
first min(n, cap) bytes of `d` (the whole of `d` when cap >= n), the rest of buf
untouched. -/
theorem C5_write_read_roundtrip (c : Config) (hc : c ∈ configs) (calls : List FsCall)
    (fs : FS) (hreach : fsRun c calls = some fs)
    (file : Nat) (hfile : IsReadWriteFile fs file)
    (d : List Nat) (n : Nat) (hd : d.length = n) (hbytes : ∀ x ∈ d, x < 256)
    (hfit : n ≤ fs_available c fs file)
    (buf : List Nat) (cap : Nat) :
    ∃ fs', fs_write_file c fs file d n = some (none, fs') ∧
      fs_read_file c fs' file buf cap
        = some (none, min n cap, d.take (min n cap) ++ buf.drop (min n cap)) ∧
      (d.take (min n cap) ++ buf.drop (min n cap)).take (min n cap) = d.take (min n cap) ∧
      (cap ≥ n → d.take (min n cap) = d) ∧
      IsReadWriteFile fs' file ∧
      fsRun c (calls ++ [.write_file file d n]) = some fs' := by
  obtain ⟨hP3, hP⟩ := pool_size_bounds c hc
  obtain ⟨hr, hw, hf⟩ := hfile
  obtain ⟨chains, F, B, h1, h2, h3, h4, h5⟩ := FsInv_run c hc calls fs hreach
  rw [fs_available_eq c hc fs file chains F B h1 h2 h3 h4 h5] at hfit
  obtain ⟨head, fs2, C, pool3, hwr, hcopy, hC, hsepC, hcapC, hperms, _⟩ :=
    fs_write_file_ok c hc fs file chains F B h1 h2 h3 h4 h5 (by omega) hf d n (by omega)
  have hlenC : C.length < FS_DATA_POOL_SIZE c := by
    have := Separated_length _ _ hsepC
    omega
  have hdn : d.take n = d := by rw [← hd]; exact List.take_length d
  obtain ⟨pool3', hcopy', hframe, hres⟩ :=
    fs_copy_in_spec _ C _ fs2.pool head d hC hsepC (by omega) hbytes hlenC
  rw [hdn, hcopy'] at hcopy
  obtain rfl := Option.some.inj hcopy
  have hC3 : IsChain pool3' head C :=
    IsSeg_congr _ _ _ _ _
      (fun e' he' x hx => hframe x (header_not_payload _ C hsepC e' he' x hx)) hC
  refine ⟨_, hwr, ?_, ?_, ?_, ?_, ?_⟩
  · have hout := fs_copy_out_spec pool3' C (FS_DATA_POOL_SIZE c) head (min n cap) hC3
      (by omega) hlenC
    have htake : (chainBytes pool3' C).take (min n cap) = d.take (min n cap) := by
      rw [← hres, List.take_take, hd]
      congr 1
      omega
    unfold fs_read_file
    simp only [FS.setNode, if_true, hperms]
    rw [if_neg (by omega), if_neg (by omega), hout, htake]
    simp only [List.length_take, hd]
    have : min (min n cap) n = min n cap := by omega
    rw [this]
  · rw [List.take_append_eq_append_take]
    simp [List.length_take, hd]
  · intro hcap
    rw [Nat.min_eq_left hcap, hdn]
  · simp only [IsReadWriteFile, FS.setNode, if_true, hperms]
    exact ⟨hr, hw, hf⟩
  · unfold fsRun at hreach ⊢
    rw [fsRunFrom_append c calls _ _ fs hreach]
    simp only [fsRunFrom, fsStep, hwr, Option.map_some']

/-- The capacity condition of C5 is exact: in a reached region, a write of more
bytes than the free extents and the file's own extents cover ends with
NoSpace. -/
theorem fs_write_file_exceeds (c : Config) (hc : c ∈ configs) (calls : List FsCall)
    (fs : FS) (hreach : fsRun c calls = some fs)
    (file : Nat) (hfile : IsReadWriteFile fs file) (d : List Nat) (n : Nat)
    (hfit : fs_available c fs file < n) :
    ∃ fs', fs_write_file c fs file d n = some (some FsError.NoSpace, fs') := by
  obtain ⟨hr, hw, hf⟩ := hfile
  obtain ⟨chains, F, B, h1, h2, h3, h4, h5⟩ := FsInv_run c hc calls fs hreach
  rw [fs_available_eq c hc fs file chains F B h1 h2 h3 h4 h5] at hfit
  obtain ⟨fs1, hwr, _⟩ :=
    fs_write_file_no_space c hc fs file chains F B h1 h2 h3 h4 h5 (by omega) hf d n (by omega)
  exact ⟨fs1, hwr⟩

/-- Witness for C5: after fs_init and the creation of the read-write file
"note.txt", whose content fields are zero, writing the two bytes "hi" and reading
up to 10 bytes returns 2 and "hi"; after a further write of three bytes, which
the file holds in the extent at offset 0, writing five bytes (which then span two
extents) and reading up to 4 bytes returns 4 and the four leading bytes. -/
theorem C5_write_read_roundtrip_witness :
    (((exampleFileFs cwii).nodes 1).size = 0 ∧ ((exampleFileFs cwii).nodes 1).data_offset = 0 ∧
      ∃ fs', fs_write_file cwii (exampleFileFs cwii) 1 [104, 105] 2 = some (none, fs') ∧
        fs_read_file cwii fs' 1 [0, 0, 0, 0, 0, 0, 0, 0, 0, 0] 10
          = some (none, 2, [104, 105, 0, 0, 0, 0, 0, 0, 0, 0])) ∧
    (∃ fs', fs_write_file cwii (exampleWrittenFs cwii) 1 [4, 5, 6, 7, 8] 5 = some (none, fs') ∧
      fs_read_file cwii fs' 1 [0, 0, 0, 0] 4 = some (none, 4, [4, 5, 6, 7])) :=
  ⟨⟨by decide, by decide, Exists.imp (fun _ h => ⟨h.1, h.2.1⟩)
    (C5_write_read_roundtrip cwii (by decide) exampleFileCalls (exampleFileFs cwii) rfl 1
      ⟨by decide, by decide, by decide⟩ [104, 105] 2 rfl (by decide) (by decide)
      [0, 0, 0, 0, 0, 0, 0, 0, 0, 0] 10)⟩,
   Exists.imp (fun _ h => ⟨h.1, h.2.1⟩)
    (C5_write_read_roundtrip cwii (by decide) exampleWrittenCalls (exampleWrittenFs cwii) rfl 1
      ⟨by decide, by decide, by decide⟩ [4, 5, 6, 7, 8] 5 rfl (by decide) (by decide)
      [0, 0, 0, 0] 4)⟩


/-! ## Alignment of the 16-bit fields -/

end LibCW
